import Mathlib

/-!
# Simple-Garbage-Collector: a shallow embedding

Two subsystems of the repository are embedded here.

* `src/gc/gc.c`: a mark-and-sweep collector over a stack-rooted object graph.
  C memory is a partial map from addresses to `object_t` records; `NULL` is
  `none`.  Recursion over the graph (`mark`) and loops over linked lists
  (`sweep`) carry a fuel argument; `none` means that the call did not return
  normally (fuel exhausted, an unallocated address was dereferenced, or an
  `assertion` called `exit(1)`).  The address `malloc` hands out is an
  argument of `newObject`.
* `src/my_malloc/my_malloc.c`: a first-fit allocator over an `sbrk` arena.
  Memory is a partial map from addresses to `meta_block` headers; payload
  bytes are not represented, and the map describes the memory of the C
  program in the states in which no two headers share a byte; the bytes of
  the headers and the stores of `request_space` on them are given as well
  (`headerAt`, `request_space_stores`).  The break can
  be raised up to a bound carried in the state, beyond which `sbrk` fails;
  the argument of `sbrk` is read as a signed 64-bit number.

C `int` fields that only count (`numObjects`, `maxObjects`) are unbounded
`Int`; signed overflow is undefined in C and is not represented, and `isInt`
says which values the 32-bit fields can hold.  `size_t` arithmetic is taken
modulo `2 ^ 64`; addresses are natural numbers.

Definitions come first, for both subsystems; the theorems follow.
-/

set_option autoImplicit false

namespace GC

/-! ## Collector: data model (`src/gc/gc.h`) -/

/-- The tag `obj_type` of gc.h. -/
inductive obj_type where
  | INT_TYPE
  | PAIR_TYPE
deriving DecidableEq, Repr

/-- A C pointer to an object: `none` is `NULL`, `some a` is the address `a`. -/
abbrev Ptr := Option Nat

/-- The record `object_t` of gc.h.  The anonymous union of `val` with
`left`/`right` is kept as three fields; the code reads `left`/`right` only
when `type` is `PAIR_TYPE`. -/
structure object_t where
  type : obj_type
  marked : Nat
  next : Ptr
  val : Int
  left : Ptr
  right : Ptr
deriving DecidableEq, Repr

/-- Object memory: which addresses currently hold a `malloc`ed object. -/
abbrev Heap := Nat → Option object_t

/-- Store `v` at address `a`. -/
def upd (h : Heap) (a : Nat) (v : Option object_t) : Heap :=
  fun x => if x = a then v else h x

/-- The macro `STACK_MAX_SIZE` of gc.h. -/
def STACK_MAX_SIZE : Nat := 256

/-- The macro `INIT_OBJ_NUM_MAX` of gc.c. -/
def INIT_OBJ_NUM_MAX : Int := 8

/-- The limit `INT_MAX` of the 32-bit C type `int`. -/
def INT_MAX : Int := 2147483647

/-- The limit `INT_MIN` of the 32-bit C type `int`. -/
def INT_MIN : Int := -2147483648

/-- The mathematical integer `x` is a value of the C type `int`. -/
def isInt (x : Int) : Prop := INT_MIN ≤ x ∧ x ≤ INT_MAX

instance (x : Int) : Decidable (isInt x) := by
  unfold isInt
  infer_instance

/-- The record `VM` of gc.h together with the object memory it points into.
`stack_size` is a C `int` that the interface keeps within `0..256`.  The
counters `numObjects` and `maxObjects` are C `int`s as well; the operations
below compute them over the mathematical integers, which is what the C code
computes as long as every result is a value of `int` (`isInt`).  A result
outside that range is a signed overflow in C, and the field cannot hold it. -/
structure VM where
  STACK : Nat → Ptr
  first_obj : Ptr
  stack_size : Nat
  numObjects : Int
  maxObjects : Int
  heap : Heap

/-! ## Collector: operations (`src/gc/gc.c`) -/

/-- The function `newVM`: an empty root set, an empty object list, threshold 8.
No object has been allocated yet. -/
def newVM : VM :=
  { STACK := fun _ => none
    first_obj := none
    stack_size := 0
    numObjects := 0
    maxObjects := INIT_OBJ_NUM_MAX
    heap := fun _ => none }

/-- The function `mark`: return at `NULL` or at an already marked object;
otherwise set the mark and, for a pair, mark `left` and then `right` (no call
changes an edge, so `right` is the value the object held on entry).
Fuel bounds the recursion depth. -/
def mark : Nat → Heap → Ptr → Option Heap
  | _, h, none => some h
  | 0, _, some _ => none
  | fuel + 1, h, some a =>
    match h a with
    | none => none
    | some o =>
      if o.marked ≠ 0 then some h
      else
        let h1 := upd h a (some { o with marked := 1 })
        if o.type = obj_type.PAIR_TYPE then
          match mark fuel h1 o.left with
          | none => none
          | some h2 => mark fuel h2 o.right
        else some h1

/-- The root set: the entries `STACK[0] .. STACK[stack_size - 1]`. -/
def roots (vm : VM) : List Ptr :=
  (List.range vm.stack_size).map vm.STACK

/-- The loop of `markAll` over the remaining roots. -/
def markRoots (fuel : Nat) : List Ptr → Heap → Option Heap
  | [], h => some h
  | p :: ps, h =>
    match mark fuel h p with
    | none => none
    | some h1 => markRoots fuel ps h1

/-- The function `markAll`. -/
def markAll (fuel : Nat) (vm : VM) : Option VM :=
  match markRoots fuel (roots vm) vm.heap with
  | none => none
  | some h => some { vm with heap := h }

/-- The cell the cursor `object_t **obj` of `sweep` points at: either
`&vm->first_obj` or `&o->next` for the object at an address. -/
inductive Loc where
  | head
  | nextOf (a : Nat)
deriving DecidableEq, Repr

/-- Read `*obj`; `none` when the cursor lies inside a released object. -/
def readLoc (vm : VM) : Loc → Option Ptr
  | Loc.head => some vm.first_obj
  | Loc.nextOf a =>
    match vm.heap a with
    | none => none
    | some o => some o.next

/-- Write `*obj = p`; `none` when the cursor lies inside a released object. -/
def writeLoc (vm : VM) (l : Loc) (p : Ptr) : Option VM :=
  match l with
  | Loc.head => some { vm with first_obj := p }
  | Loc.nextOf a =>
    match vm.heap a with
    | none => none
    | some o => some { vm with heap := upd vm.heap a (some { o with next := p }) }

/-- The while loop of `sweep` with the cursor at `l`. -/
def sweepLoop : Nat → VM → Loc → Option VM
  | 0, _, _ => none
  | fuel + 1, vm, l =>
    match readLoc vm l with
    | none => none
    | some none => some vm
    | some (some a) =>
      match vm.heap a with
      | none => none
      | some o =>
        if o.marked = 0 then
          match writeLoc vm l o.next with
          | none => none
          | some vm1 =>
            sweepLoop fuel
              { vm1 with heap := upd vm1.heap a none, numObjects := vm1.numObjects - 1 } l
        else
          sweepLoop fuel { vm with heap := upd vm.heap a (some { o with marked := 0 }) }
            (Loc.nextOf a)

/-- The function `sweep`. -/
def sweep (fuel : Nat) (vm : VM) : Option VM :=
  sweepLoop fuel vm Loc.head

/-- The function `gc`: mark, sweep, then recompute the threshold.  The product
`numObjects * 2` is taken over the integers; it is the value of the C
expression whenever it is a value of `int` (`isInt`), and where it is not the
C multiplication overflows. -/
def gc (fuel : Nat) (vm : VM) : Option VM :=
  match markAll fuel vm with
  | none => none
  | some vm1 =>
    match sweep fuel vm1 with
    | none => none
    | some vm2 =>
      some { vm2 with
        maxObjects := if vm2.numObjects = 0 then INIT_OBJ_NUM_MAX else vm2.numObjects * 2 }

/-- The two numbers `gc` prints: "Collected %d objects, %d remaining." -/
def gcReport (fuel : Nat) (vm : VM) : Option (Int × Int) :=
  match gc fuel vm with
  | none => none
  | some vm1 => some (vm.numObjects - vm1.numObjects, vm1.numObjects)

/-- The function `newObject`.  `addr` is the address `malloc` returns; it must
not be in use.  The payload union is uninitialised in C and set to zero here. -/
def newObject (fuel : Nat) (vm : VM) (typ : obj_type) (addr : Nat) : Option (Nat × VM) :=
  match (if vm.numObjects = vm.maxObjects then gc fuel vm else some vm) with
  | none => none
  | some vm1 =>
    match vm1.heap addr with
    | some _ => none
    | none =>
      let obj : object_t :=
        { type := typ, marked := 0, next := vm1.first_obj, val := 0, left := none, right := none }
      some (addr, { vm1 with heap := upd vm1.heap addr (some obj)
                             first_obj := some addr
                             numObjects := vm1.numObjects + 1 })

/-- The function `push`; `none` is the fatal "STACK OVERFLOW". -/
def push (vm : VM) (obj : Ptr) : Option VM :=
  if vm.stack_size < STACK_MAX_SIZE then
    some { vm with STACK := fun i => if i = vm.stack_size then obj else vm.STACK i
                   stack_size := vm.stack_size + 1 }
  else none

/-- The function `pop`; `none` is the fatal "STACK UNDERFLOW". -/
def pop (vm : VM) : Option (Ptr × VM) :=
  if vm.stack_size > 0 then
    some (vm.STACK (vm.stack_size - 1), { vm with stack_size := vm.stack_size - 1 })
  else none

/-- The function `pushInt`. -/
def pushInt (fuel : Nat) (vm : VM) (val : Int) (addr : Nat) : Option VM :=
  match newObject fuel vm obj_type.INT_TYPE addr with
  | none => none
  | some (a, vm1) =>
    match vm1.heap a with
    | none => none
    | some o => push { vm1 with heap := upd vm1.heap a (some { o with val := val }) } (some a)

/-- The function `pushPair`. -/
def pushPair (fuel : Nat) (vm : VM) (addr : Nat) : Option (Nat × VM) :=
  match newObject fuel vm obj_type.PAIR_TYPE addr with
  | none => none
  | some (a, vm1) =>
    match pop vm1 with
    | none => none
    | some (l, vm2) =>
      match vm2.heap a with
      | none => none
      | some o =>
        let vm3 := { vm2 with heap := upd vm2.heap a (some { o with left := l }) }
        match pop vm3 with
        | none => none
        | some (r, vm4) =>
          match vm4.heap a with
          | none => none
          | some o1 =>
            let vm5 := { vm4 with heap := upd vm4.heap a (some { o1 with right := r }) }
            match push vm5 (some a) with
            | none => none
            | some vm6 => some (a, vm6)

/-- The function `freeVM` up to the final `free(vm)`. -/
def freeVM (fuel : Nat) (vm : VM) : Option VM :=
  gc fuel { vm with stack_size := 0 }

/-! ## Collector: specification vocabulary -/

/-- The relation `Chain h p L`: following `next` from `p` visits exactly the addresses of
`L`, in order, each of them allocated, and then reaches `NULL`. -/
def Chain (h : Heap) : Ptr → List Nat → Prop
  | p, [] => p = none
  | p, a :: l => p = some a ∧ ∃ o ∈ h a, Chain h o.next l

instance Chain.instDecidable (h : Heap) : (p : Ptr) → (L : List Nat) → Decidable (Chain h p L)
  | p, [] => inferInstanceAs (Decidable (p = none))
  | p, a :: l =>
    have : DecidablePred (fun o : object_t => Chain h o.next l) :=
      fun o => Chain.instDecidable h o.next l
    inferInstanceAs (Decidable (p = some a ∧ ∃ o ∈ h a, Chain h o.next l))

/-- A pointer is `NULL` or refers to a member of `L`. -/
def PtrIn (p : Ptr) (L : List Nat) : Prop := ∀ a ∈ p, a ∈ L

instance PtrIn.instDecidable (p : Ptr) (L : List Nat) : Decidable (PtrIn p L) :=
  inferInstanceAs (Decidable (∀ a ∈ p, a ∈ L))

/-- The mark bit of the object at `a` is set (`false` for an unallocated address). -/
def isMarked (h : Heap) (a : Nat) : Bool :=
  match h a with
  | none => false
  | some o => o.marked != 0

/-- Every pair edge leaving the object `o` is `NULL` or stays inside `L`. -/
def EdgesIn (o : object_t) (L : List Nat) : Prop :=
  o.type = obj_type.PAIR_TYPE → PtrIn o.left L ∧ PtrIn o.right L

instance EdgesIn.instDecidable (o : object_t) (L : List Nat) : Decidable (EdgesIn o L) :=
  inferInstanceAs (Decidable (_ → _))

/-- A well-formed VM state whose all-objects list is `L`: the list is a
`NULL`-terminated chain from `first_obj`, every root and every pair edge is
`NULL` or refers to an object of the list, and all marks are clear. -/
def WellFormed (vm : VM) (L : List Nat) : Prop :=
  Chain vm.heap vm.first_obj L ∧
  (∀ p ∈ roots vm, PtrIn p L) ∧
  (∀ a ∈ L, ∀ o ∈ vm.heap a, EdgesIn o L) ∧
  (∀ a ∈ L, isMarked vm.heap a = false)

instance WellFormed.instDecidable (vm : VM) (L : List Nat) : Decidable (WellFormed vm L) :=
  inferInstanceAs (Decidable (_ ∧ _ ∧ _ ∧ _))

/-- Objects reachable in `h` from the pointers `rs` through pair edges. -/
inductive Reachable (h : Heap) (rs : List Ptr) : Nat → Prop where
  | root {a : Nat} : some a ∈ rs → Reachable h rs a
  | left {a b : Nat} {o : object_t} : Reachable h rs a → h a = some o →
      o.type = obj_type.PAIR_TYPE → o.left = some b → Reachable h rs b
  | right {a b : Nat} {o : object_t} : Reachable h rs a → h a = some o →
      o.type = obj_type.PAIR_TYPE → o.right = some b → Reachable h rs b

/-- Objects transitively reachable from the root set of `vm`. -/
def Reach (vm : VM) (a : Nat) : Prop := Reachable vm.heap (roots vm) a

/-- The objects `o` and `o1` agree on type, value and both edges. -/
def SameData (o o1 : object_t) : Prop :=
  o1.type = o.type ∧ o1.val = o.val ∧ o1.left = o.left ∧ o1.right = o.right

/-! ## Collector: concrete states -/

/-- The state of `GC_test1` before `gc`: two scalars, both on the stack. -/
def test1VM : Option VM :=
  match pushInt 100 newVM 1 10 with
  | none => none
  | some vm1 => pushInt 100 vm1 2 20

/-- The state of `GC_test4` just before `gc`: scalars at 10, 20, 40, 50, the
pair `a` at 30 and the pair `b` at 60, with `a->right = b` and `b->right = a`;
the roots are `a` and `b` (slot 2 of the stack array still holds the popped
scalar 4). -/
def cycleVM : VM :=
  { STACK := fun i =>
      if i = 0 then some 30 else if i = 1 then some 60 else if i = 2 then some 50 else none
    first_obj := some 60
    stack_size := 2
    numObjects := 6
    maxObjects := 8
    heap := fun x =>
      if x = 10 then some ⟨obj_type.INT_TYPE, 0, none, 1, none, none⟩
      else if x = 20 then some ⟨obj_type.INT_TYPE, 0, some 10, 2, none, none⟩
      else if x = 30 then some ⟨obj_type.PAIR_TYPE, 0, some 20, 0, some 20, some 60⟩
      else if x = 40 then some ⟨obj_type.INT_TYPE, 0, some 30, 3, none, none⟩
      else if x = 50 then some ⟨obj_type.INT_TYPE, 0, some 40, 4, none, none⟩
      else if x = 60 then some ⟨obj_type.PAIR_TYPE, 0, some 50, 0, some 50, some 30⟩
      else none }

/-- The state `cycleVM` in the middle of a collection: the marks of the two
pairs and of the scalars 2 and 4 are set. -/
def markedVM : VM :=
  { cycleVM with
    heap := fun x =>
      if x = 10 then some ⟨obj_type.INT_TYPE, 0, none, 1, none, none⟩
      else if x = 20 then some ⟨obj_type.INT_TYPE, 1, some 10, 2, none, none⟩
      else if x = 30 then some ⟨obj_type.PAIR_TYPE, 1, some 20, 0, some 20, some 60⟩
      else if x = 40 then some ⟨obj_type.INT_TYPE, 0, some 30, 3, none, none⟩
      else if x = 50 then some ⟨obj_type.INT_TYPE, 1, some 40, 4, none, none⟩
      else if x = 60 then some ⟨obj_type.PAIR_TYPE, 1, some 50, 0, some 50, some 30⟩
      else none }

/-! ## Collector: auxiliary notions for the proofs -/

/-- The heap `h1` arises from `h` by setting the mark of some unmarked objects to 1. -/
def MarkStep (h h1 : Heap) : Prop :=
  ∀ x, h1 x = h x ∨ ∃ o, h x = some o ∧ o.marked = 0 ∧ h1 x = some { o with marked := 1 }

/-- Both children of the object at `x`, when it is a pair, carry a mark. -/
def ChildrenMarked (h : Heap) (x : Nat) : Prop :=
  ∀ o, h x = some o → o.type = obj_type.PAIR_TYPE →
    (∀ b, o.left = some b → isMarked h b = true) ∧ (∀ b, o.right = some b → isMarked h b = true)

/-- What a completed marking from the pointers `rs` guarantees. -/
structure MarkPost (h : Heap) (rs : List Ptr) (h1 : Heap) : Prop where
  step : MarkStep h h1
  roots : ∀ a, some a ∈ rs → isMarked h1 a = true
  fresh : ∀ x, isMarked h x = false → isMarked h1 x = true →
    ChildrenMarked h1 x ∧ Reachable h rs x

/-- A finite object graph on the addresses `L`: each of them is allocated and
every pair edge leaving it is `NULL` or leads back into `L` (cycles and
aliasing allowed, marks arbitrary). -/
def Closed (h : Heap) (L : List Nat) : Prop :=
  ∀ a ∈ L, ∃ o ∈ h a, EdgesIn o L

instance Closed.instDecidable (h : Heap) (L : List Nat) : Decidable (Closed h L) :=
  inferInstanceAs (Decidable (∀ a ∈ L, ∃ o ∈ h a, EdgesIn o L))

/-- Number of entries of `L` whose mark is clear. -/
def unmarkedCount (h : Heap) (L : List Nat) : Nat :=
  L.countP (fun a => !isMarked h a)

/-- The function `mark` again, recording in order the addresses at which the
assignment `obj->marked = 1` is executed. -/
def markLog : Nat → Heap → Ptr → Option (Heap × List Nat)
  | _, h, none => some (h, [])
  | 0, _, some _ => none
  | fuel + 1, h, some a =>
    match h a with
    | none => none
    | some o =>
      if o.marked ≠ 0 then some (h, [])
      else
        let h1 := upd h a (some { o with marked := 1 })
        if o.type = obj_type.PAIR_TYPE then
          match markLog fuel h1 o.left with
          | none => none
          | some (h2, w1) =>
            match markLog fuel h2 o.right with
            | none => none
            | some (h3, w2) => some (h3, a :: (w1 ++ w2))
        else some (h1, [a])

/-- The cell under the cursor is not one of the nodes still to be visited. -/
def LocOK (vm : VM) (l : Loc) (L : List Nat) : Prop :=
  ∀ b, l = Loc.nextOf b → b ∉ L ∧ ∃ o, vm.heap b = some o

/-- What `sweepLoop` guarantees when the chain under the cursor is `L`. -/
structure SweepPost (vm : VM) (l : Loc) (L : List Nat) (vm1 : VM) : Prop where
  chain : ∃ p1, readLoc vm1 l = some p1 ∧ Chain vm1.heap p1 (L.filter (isMarked vm.heap))
  kept : ∀ x ∈ L, isMarked vm.heap x = true →
    ∃ o o1, vm.heap x = some o ∧ vm1.heap x = some o1 ∧ SameData o o1 ∧ o1.marked = 0
  freed : ∀ x ∈ L, isMarked vm.heap x = false → vm1.heap x = none
  frame : ∀ x, x ∉ L → l ≠ Loc.nextOf x → vm1.heap x = vm.heap x
  cell : ∀ b, l = Loc.nextOf b → ∀ o, vm.heap b = some o →
    ∃ o1, vm1.heap b = some o1 ∧ SameData o o1 ∧ o1.marked = o.marked
  count : vm1.numObjects =
    vm.numObjects - ((L.filter (fun a => !isMarked vm.heap a)).length : Int)
  stack : vm1.STACK = vm.STACK ∧ vm1.stack_size = vm.stack_size ∧ vm1.maxObjects = vm.maxObjects
  first : l ≠ Loc.head → vm1.first_obj = vm.first_obj

/-- What a completed `gc` guarantees on a well-formed state with object list
`L`; `keep` is the mark bit as it stands between the two phases. -/
structure GcPost (vm : VM) (L : List Nat) (vm1 : VM) (keep : Nat → Bool) : Prop where
  keep_iff : ∀ a ∈ L, keep a = true ↔ Reach vm a
  chain : Chain vm1.heap vm1.first_obj (L.filter keep)
  kept : ∀ x ∈ L, keep x = true →
    ∃ o o1, vm.heap x = some o ∧ vm1.heap x = some o1 ∧ SameData o o1 ∧ o1.marked = 0
  freed : ∀ x ∈ L, keep x = false → vm1.heap x = none
  frame : ∀ x, x ∉ L → vm1.heap x = vm.heap x
  count : vm1.numObjects = vm.numObjects - ((L.filter (fun a => !keep a)).length : Int)
  stack : vm1.STACK = vm.STACK ∧ vm1.stack_size = vm.stack_size
  max : vm1.maxObjects =
    if vm1.numObjects = 0 then INIT_OBJ_NUM_MAX else vm1.numObjects * 2

/-- The chain from `p` is a proper list and every object on it has a clear mark. -/
def ClearList (h : Heap) (p : Ptr) : Prop :=
  ∃ L, Chain h p L ∧ ∀ a ∈ L, isMarked h a = false

/-- Every object of the all-objects list of `vm` has `marked == 0`. -/
def MarksClear (vm : VM) : Prop := ClearList vm.heap vm.first_obj

/-- States reachable from `newVM` through the public operations. -/
inductive Reached : VM → Prop where
  | init : Reached newVM
  | pushInt {vm vm1 : VM} {fuel : Nat} {val : Int} {addr : Nat} :
      Reached vm → pushInt fuel vm val addr = some vm1 → Reached vm1
  | pushPair {vm vm1 : VM} {fuel addr a : Nat} :
      Reached vm → pushPair fuel vm addr = some (a, vm1) → Reached vm1
  | push {vm vm1 : VM} {p : Ptr} : Reached vm → push vm p = some vm1 → Reached vm1
  | pop {vm vm1 : VM} {p : Ptr} : Reached vm → pop vm = some (p, vm1) → Reached vm1
  | gc {vm vm1 : VM} {fuel : Nat} : Reached vm → gc fuel vm = some vm1 → Reached vm1

/-- The all-objects list of `vm` is a proper list and each object on it has
`marked == 0`. -/
def ListUnmarked (vm : VM) : Prop :=
  ∃ L, Chain vm.heap vm.first_obj L ∧ ∀ a ∈ L, ∃ o, vm.heap a = some o ∧ o.marked = 0

/-! ## Collector: client scripts (`src/main.c`) -/

/-- The assignment `a->right = p` that `GC_test4` makes on an object it holds;
`none` when nothing is allocated at `a`. -/
def setRight (vm : VM) (a : Nat) (p : Ptr) : Option VM :=
  match vm.heap a with
  | none => none
  | some o => some { vm with heap := upd vm.heap a (some { o with right := p }) }

/-- One statement of a client script: a call of the interface of gc.h or an
assignment to the right edge of an object. -/
inductive Op where
  | pushInt (val : Int) (addr : Nat)
  | pushPair (addr : Nat)
  | push (p : Ptr)
  | pop
  | sweep
  | gc
  | setRight (a : Nat) (p : Ptr)

/-- Execute one statement; results other than the new state are dropped. -/
def step (fuel : Nat) (vm : VM) : Op → Option VM
  | Op.pushInt val addr => pushInt fuel vm val addr
  | Op.pushPair addr => (pushPair fuel vm addr).map Prod.snd
  | Op.push p => push vm p
  | Op.pop => (pop vm).map Prod.snd
  | Op.sweep => sweep fuel vm
  | Op.gc => gc fuel vm
  | Op.setRight a p => setRight vm a p

/-- Execute a script from left to right. -/
def runOps (fuel : Nat) : List Op → VM → Option VM
  | [], vm => some vm
  | op :: ops, vm =>
    match step fuel vm op with
    | none => none
    | some vm1 => runOps fuel ops vm1

/-- States reachable from `newVM` by client scripts: `pushInt`, `pushPair`,
`push`, `pop`, `sweep`, `gc` and assignments to right edges. -/
inductive Run : VM → Prop where
  | init : Run newVM
  | next {vm vm1 : VM} {fuel : Nat} {op : Op} : Run vm → step fuel vm op = some vm1 → Run vm1

/-- The bookkeeping invariant of the collector between calls: the all-objects
list is a proper list `L` with all marks clear, `numObjects` is its length,
the threshold is not exceeded and the root stack is within its bound. -/
def Sound (vm : VM) (L : List Nat) : Prop :=
  Chain vm.heap vm.first_obj L ∧ (∀ a ∈ L, isMarked vm.heap a = false) ∧
  vm.numObjects = (L.length : Int) ∧ vm.numObjects ≤ vm.maxObjects ∧
  vm.stack_size ≤ STACK_MAX_SIZE

/-- The script of `GC_test4` up to and including the two assignments that
close the cycle; `malloc` returns the addresses 10, 20, ..., 60 in turn. -/
def test4Script : List Op :=
  [Op.pushInt 1 10, Op.pushInt 2 20, Op.pushPair 30, Op.pushInt 3 40, Op.pushInt 4 50,
   Op.pushPair 60, Op.setRight 30 (some 60), Op.setRight 60 (some 30)]

/-- The value stored in the scalar at `a`, if an object is allocated there. -/
def valAt (vm : VM) (a : Nat) : Option Int :=
  (vm.heap a).map (fun o => o.val)

/-- The two edges of the object at `a`, if an object is allocated there. -/
def edgesAt (vm : VM) (a : Nat) : Option (Ptr × Ptr) :=
  (vm.heap a).map (fun o => (o.left, o.right))

/-- The cyclic state `cycleVM` with the threshold lowered to the live count,
so that the next allocation starts with a collection. -/
def fullVM : VM := { cycleVM with maxObjects := 6 }

/-- The cyclic state `cycleVM` with the counter `numObjects` at `2^30 + 2`. -/
def hugeCountVM : VM := { cycleVM with numObjects := 2 ^ 30 + 2 }

end GC

namespace Alloc

/-! ## Allocator: data model (`src/my_malloc/my_malloc.h`) -/

/-- The modulus of `size_t` arithmetic. -/
def SIZE_MOD : Nat := 2 ^ 64

/-- The least `size_t` value that is negative when it is converted to
`intptr_t`, the type of the parameter of `sbrk`. -/
def SIGN_BIT : Nat := 2 ^ 63

/-- The macro `DATABUS_SIZE_IN_BYTES`. -/
def DATABUS_SIZE_IN_BYTES : Nat := 8

/-- The macro `META_DATA_SIZE`, that is `sizeof(meta_block)`: four members,
each aligned to `DATABUS_SIZE_IN_BYTES * 8 = 64` bytes. -/
def META_DATA_SIZE : Nat := 256

/-- The record `meta_block` of my_malloc.h; `next` is `none` for `NULL`. -/
structure meta_block where
  next : Option Nat
  size : Nat
  free : Nat
  magic : Nat
deriving DecidableEq, Repr

/-- The offset of the member `next` in `meta_block`. -/
def OFFSET_NEXT : Nat := 0

/-- The offset of the member `size` in `meta_block`: the members are aligned
to 64 bytes. -/
def OFFSET_SIZE : Nat := 64

/-- The offset of the member `free` in `meta_block`. -/
def OFFSET_FREE : Nat := 128

/-- The offset of the member `magic` in `meta_block`. -/
def OFFSET_MAGIC : Nat := 192

/-- Header memory: the block header stored at an address, if one was written
there.  Payload bytes are not represented.  A header at `a` occupies the
bytes `a .. a + META_DATA_SIZE - 1`; the map keeps the headers as separate
entries, so it describes the memory of the C program as long as the headers
in use share no byte (`HeadersApart`).  Where two headers overlap, a store
to a member of one can change a member of the other, and the map does not
show that; the byte view of the headers is `headerAt`. -/
abbrev Mem := Nat → Option meta_block

/-- Store the header `v` at address `a`. -/
def put (m : Mem) (a : Nat) (v : meta_block) : Mem :=
  fun x => if x = a then some v else m x

/-- The allocator state: the global `heap_base`, the program break, the bound
beyond which `sbrk` fails, and the headers written so far. -/
structure Arena where
  heap_base : Option Nat
  brk : Nat
  limit : Nat
  mem : Mem

/-- The arena before the first request. -/
def emptyArena (brk limit : Nat) : Arena :=
  { heap_base := none, brk := brk, limit := limit, mem := fun _ => none }

/-! ## Allocator: operations (`src/my_malloc/my_malloc.c`) -/

/-- The system call `sbrk(incr)`: the old break on success, `none` for
`(void *)-1`.  The parameter of `sbrk` is an `intptr_t`, so the `size_t`
value `incr` that `request_space` passes is read as a signed number.  Below
`SIGN_BIT` it raises the break by `incr`, unless the bound `limit` would be
exceeded.  From `SIGN_BIT` on it stands for the negative number
`incr - 2 ^ 64` and lowers the break by `SIZE_MOD - incr`, unless the break
would pass below address 0. -/
def sbrk (s : Arena) (incr : Nat) : Option Nat × Arena :=
  if incr < SIGN_BIT then
    if s.brk + incr ≤ s.limit then (some s.brk, { s with brk := s.brk + incr })
    else (none, s)
  else
    if SIZE_MOD - incr ≤ s.brk then (some s.brk, { s with brk := s.brk - (SIZE_MOD - incr) })
    else (none, s)

/-- The function `find_free_block`: walk from `current` to the first block with
`free` set and `size >= size`; `last` trails one block behind. -/
def find_free_block : Nat → Mem → Option Nat → Nat → Nat → Option (Option Nat × Nat)
  | _, _, none, last, _ => some (none, last)
  | 0, _, some _, _, _ => none
  | fuel + 1, m, some c, last, size =>
    match m c with
    | none => none
    | some b =>
      if b.free ≠ 0 ∧ b.size ≥ size then some (some c, last)
      else find_free_block fuel m b.next c size

/-- The function `request_space`.  `none` when the `assert` on the result of
`sbrk` aborts (this includes every failure of `sbrk`, so the later test for
`(void *)-1` is never true) or when `*last` is not a header. -/
def request_space (s : Arena) (last : Option Nat) (size : Nat) : Option (Nat × Arena) :=
  let block := s.brk
  match sbrk s ((size + META_DATA_SIZE) % SIZE_MOD) with
  | (none, _) => none
  | (some request, s1) =>
    if block ≠ request then none
    else
      let linked : Option Mem :=
        match last with
        | none => some s1.mem
        | some l =>
          match s1.mem l with
          | none => none
          | some lb => some (put s1.mem l { lb with next := some block })
      match linked with
      | none => none
      | some m =>
        some (block, { s1 with
          mem := put m block { next := none, size := size, free := 0, magic := 0x12 } })

/-- The function `get_block_ptr`: one header width back. -/
def get_block_ptr (ptr : Nat) : Nat := ptr - META_DATA_SIZE

/-- The function `force_alignment`. -/
def force_alignment (size : Nat) : Nat :=
  if size ≥ DATABUS_SIZE_IN_BYTES then
    if size % DATABUS_SIZE_IN_BYTES ≠ 0 then (size + size % DATABUS_SIZE_IN_BYTES) % SIZE_MOD
    else size
  else (size + (DATABUS_SIZE_IN_BYTES - size)) % SIZE_MOD

/-- The function `splitting`: the header at `second` takes over the rest of
`block`, which shrinks to `aligned_size`. -/
def splitting (m : Mem) (block second aligned_size : Nat) : Option Mem :=
  match m block with
  | none => none
  | some b =>
    let m1 := put m second
      { next := b.next, free := 1, size := (b.size + SIZE_MOD - aligned_size) % SIZE_MOD,
        magic := 0x99 }
    match m1 block with
    | none => none
    | some b1 => some (put m1 block { b1 with size := aligned_size, next := some second })

/-- The function `merging`, with the cursor at `current`. -/
def merging : Nat → Mem → Option Nat → Option Mem
  | _, m, none => some m
  | 0, _, some _ => none
  | fuel + 1, m, some c =>
    match m c with
    | none => none
    | some cb =>
      match cb.next with
      | none => some m
      | some n =>
        match m n with
        | none => none
        | some nb =>
          if cb.free ≠ 0 ∧ nb.free ≠ 0 then
            let m1 := put m c { cb with size := (cb.size + nb.size) % SIZE_MOD }
            match m1 n, m1 c with
            | some nb1, some cb1 =>
              let m2 := put m1 c { cb1 with next := nb1.next }
              match m2 n with
              | none => none
              | some nb2 =>
                let m3 := put m2 n { nb2 with next := none }
                match m3 c with
                | none => none
                | some cb3 => merging fuel m3 cb3.next
            | _, _ => none
          else merging fuel m (some n)

/-- The function `my_malloc`.  The result is the returned pointer (`none` for
`NULL`) and the new state; an outer `none` means the call did not return. -/
def my_malloc (fuel : Nat) (s : Arena) (size : Nat) : Option (Option Nat × Arena) :=
  let aligned_size := force_alignment size
  if size = 0 then some (none, s)
  else
    match s.heap_base with
    | none =>
      match request_space s none aligned_size with
      | none => none
      | some (block, s1) =>
        some (some (block + META_DATA_SIZE), { s1 with heap_base := some block })
    | some base =>
      match find_free_block fuel s.mem (some base) base aligned_size with
      | none => none
      | some (none, last) =>
        match request_space s (some last) aligned_size with
        | none => none
        | some (block, s1) => some (some (block + META_DATA_SIZE), s1)
      | some (some block, _) =>
        match s.mem block with
        | none => none
        | some b =>
          let split : Option Mem :=
            if b.size > aligned_size then
              splitting s.mem block (block + aligned_size + META_DATA_SIZE) aligned_size
            else some s.mem
          match split with
          | none => none
          | some m1 =>
            match m1 block with
            | none => none
            | some b1 =>
              some (some (block + META_DATA_SIZE),
                { s with mem := put m1 block { b1 with free := 0, magic := 0x77 } })

/-- The function `my_free`; `none` when `ptr` is not one header width past a
header. -/
def my_free (fuel : Nat) (s : Arena) (ptr : Option Nat) : Option Arena :=
  match ptr with
  | none => some s
  | some p =>
    if p < META_DATA_SIZE then none
    else
      match s.mem (get_block_ptr p) with
      | none => none
      | some b =>
        let m1 := put s.mem (get_block_ptr p) { b with free := 1 }
        match merging fuel m1 s.heap_base with
        | none => none
        | some m2 =>
          match m2 (get_block_ptr p) with
          | none => none
          | some b2 => some { s with mem := put m2 (get_block_ptr p) { b2 with magic := 0x55 } }

/-! ## Allocator: specification vocabulary -/

/-- The relation `BChain m p L`: following `next` from `p` visits exactly the headers at the
addresses `L`, in order, and then reaches `NULL`. -/
def BChain (m : Mem) : Option Nat → List Nat → Prop
  | p, [] => p = none
  | p, a :: l => p = some a ∧ ∃ b ∈ m a, BChain m b.next l

instance BChain.instDecidable (m : Mem) :
    (p : Option Nat) → (L : List Nat) → Decidable (BChain m p L)
  | p, [] => inferInstanceAs (Decidable (p = none))
  | p, a :: l =>
    have : DecidablePred (fun b : meta_block => BChain m b.next l) :=
      fun b => BChain.instDecidable m b.next l
    inferInstanceAs (Decidable (p = some a ∧ ∃ b ∈ m a, BChain m b.next l))

/-- The block at `a` is free and has room for `size` bytes. -/
def fits (m : Mem) (size : Nat) (a : Nat) : Bool :=
  match m a with
  | none => false
  | some b => b.free != 0 && decide (b.size ≥ size)

/-- The `free` flag and `size` of the block at `a`. -/
def blockInfo (m : Mem) (a : Nat) : Option (Nat × Nat) :=
  (m a).map (fun b => (b.free, b.size))

/-- The headers at the addresses `L` lie entirely below the break `brk` and
no two of them share a byte. -/
def HeadersApart (L : List Nat) (brk : Nat) : Prop :=
  (∀ a ∈ L, a + META_DATA_SIZE ≤ brk) ∧
  L.Pairwise (fun a b => a + META_DATA_SIZE ≤ b ∨ b + META_DATA_SIZE ≤ a)

instance (L : List Nat) (brk : Nat) : Decidable (HeadersApart L brk) := by
  unfold HeadersApart
  infer_instance

/-! ## Allocator: the bytes of the headers

The members of a header are eight-byte and one-byte objects at the offsets
`OFFSET_NEXT`, `OFFSET_SIZE`, `OFFSET_FREE` and `OFFSET_MAGIC`; eight-byte
values are stored least significant byte first, and the pointer `NULL` is 0. -/

/-- Byte memory: the value of the byte at each address. -/
abbrev Bytes := Nat → Nat

/-- The value of the `uint8_t` member at `a`. -/
def load8 (m : Bytes) (a : Nat) : Nat := m a % 256

/-- The value of the eight-byte member at `a`. -/
def load64 (m : Bytes) (a : Nat) : Nat :=
  m a % 256 + 256 * (m (a + 1) % 256 + 256 * (m (a + 2) % 256 + 256 * (m (a + 3) % 256 +
    256 * (m (a + 4) % 256 + 256 * (m (a + 5) % 256 + 256 * (m (a + 6) % 256 +
      256 * (m (a + 7) % 256)))))))

/-- The pointer that an eight-byte value stands for. -/
def ptrOf (v : Nat) : Option Nat := if v = 0 then none else some v

/-- The header that the bytes from `a` on hold. -/
def headerAt (m : Bytes) (a : Nat) : meta_block :=
  { next := ptrOf (load64 m (a + OFFSET_NEXT))
    size := load64 m (a + OFFSET_SIZE)
    free := load8 m (a + OFFSET_FREE)
    magic := load8 m (a + OFFSET_MAGIC) }

/-- The bytes `M` hold the headers that the header map `m` records at the
addresses `L`. -/
def Holds (M : Bytes) (m : Mem) (L : List Nat) : Prop :=
  ∀ a ∈ L, m a = some (headerAt M a)

instance (M : Bytes) (m : Mem) (L : List Nat) : Decidable (Holds M m L) := by
  unfold Holds
  infer_instance

/-- Three requests of 8 bytes on an empty arena with break 1000, then the
first, the third and the second region are released, in this order. -/
def threeFreed : Option Arena :=
  match my_malloc 5 (emptyArena 1000 100000) 8 with
  | some (p1, s1) =>
    match my_malloc 5 s1 8 with
    | some (p2, s2) =>
      match my_malloc 5 s2 8 with
      | some (p3, s3) =>
        match my_free 5 s3 p1 with
        | some s4 =>
          match my_free 5 s4 p3 with
          | some s5 => my_free 5 s5 p2
          | none => none
        | none => none
      | none => none
    | none => none
  | none => none

/-- An arena with three blocks: 1000 in use (8 bytes), 1264 free (8 bytes),
1528 free (24 bytes). -/
def demoArena : Arena :=
  { heap_base := some 1000
    brk := 1808
    limit := 100000
    mem := fun x =>
      if x = 1000 then some ⟨some 1264, 8, 0, 0x12⟩
      else if x = 1264 then some ⟨some 1528, 8, 1, 0x55⟩
      else if x = 1528 then some ⟨none, 24, 1, 0x55⟩
      else none }

/-- Requests of 24 and of 8 bytes on an empty arena with break 1000, release
of the first region, then a request of 8 bytes, which splits the first block. -/
def splitScenario : Option (Option Nat × Arena) :=
  match my_malloc 5 (emptyArena 1000 100000) 24 with
  | some (p1, s1) =>
    match my_malloc 5 s1 8 with
    | some (_, s2) =>
      match my_free 5 s2 p1 with
      | some s3 => my_malloc 5 s3 8
      | none => none
    | none => none
  | none => none

/-- Requests of 72 and of 8 bytes on an empty arena with break 1000, release
of the first region, then a request of 8 bytes, which splits the first block. -/
def strideScenario : Option (Option Nat × Arena) :=
  match my_malloc 5 (emptyArena 1000 100000) 72 with
  | some (p1, s1) =>
    match my_malloc 5 s1 8 with
    | some (_, s2) =>
      match my_free 5 s2 p1 with
      | some s3 => my_malloc 5 s3 8
      | none => none
    | none => none
  | none => none

/-- A request of 72 bytes on an empty arena with break 1000, release of the
region, then a request of 8 bytes, which splits the block. -/
def crossScenario : Option (Option Nat × Arena) :=
  match my_malloc 5 (emptyArena 1000 100000) 72 with
  | some (p1, s1) =>
    match my_free 5 s1 p1 with
    | some s2 => my_malloc 5 s2 8
    | none => none
  | none => none

/-- The address one past the payload of the block at `a`: header address plus
header width plus `size`. -/
def payloadEnd (m : Mem) (a : Nat) : Option Nat :=
  (m a).map (fun b => a + META_DATA_SIZE + b.size)

end Alloc

namespace GC

/-- Scenario `GC_test1`: both scalars are on the stack and survive the collection. -/
theorem test1_collect_count : (test1VM.bind (gc 100)).map (fun vm => vm.numObjects) = some 2 := by decide

/-- The state of `GC_test1` is well-formed. -/
theorem test1_wellFormed : (test1VM.map (fun vm => decide (WellFormed vm [20, 10]))) = some true := by decide

/-! ## Marking: what `mark` changes -/

theorem upd_same (h : Heap) (a : Nat) (v : Option object_t) : upd h a v a = v := by
  simp [upd]

theorem upd_other (h : Heap) (a : Nat) (v : Option object_t) (x : Nat) (hx : x ≠ a) :
    upd h a v x = h x := by
  simp [upd, hx]

theorem MarkStep.refl (h : Heap) : MarkStep h h := fun _ => Or.inl rfl

theorem MarkStep.trans {h h1 h2 : Heap} (s1 : MarkStep h h1) (s2 : MarkStep h1 h2) :
    MarkStep h h2 := by
  intro x
  rcases s2 x with e2 | ⟨o1, ho1, hm1, e2⟩
  · rcases s1 x with e1 | ⟨o, ho, hm, e1⟩
    · exact Or.inl (e2.trans e1)
    · exact Or.inr ⟨o, ho, hm, e2.trans e1⟩
  · rcases s1 x with e1 | ⟨o, _, _, e1⟩
    · exact Or.inr ⟨o1, e1 ▸ ho1, hm1, e2⟩
    · rw [e1] at ho1
      cases ho1
      simp at hm1

theorem MarkStep.set {h : Heap} {a : Nat} {o : object_t} (ho : h a = some o)
    (hm : o.marked = 0) : MarkStep h (upd h a (some { o with marked := 1 })) := by
  intro x
  by_cases hx : x = a
  · subst hx
    exact Or.inr ⟨o, ho, hm, upd_same _ _ _⟩
  · exact Or.inl (upd_other _ _ _ _ hx)

/-- Marking keeps every object allocated and changes nothing but its mark. -/
theorem MarkStep.fwd {h h1 : Heap} (s : MarkStep h h1) {x : Nat} {o : object_t}
    (ho : h x = some o) :
    ∃ o1, h1 x = some o1 ∧ SameData o o1 ∧ o1.next = o.next ∧ (o.marked ≠ 0 → o1 = o) := by
  rcases s x with e | ⟨o2, ho2, hm2, e⟩
  · exact ⟨o, e.trans ho, ⟨rfl, rfl, rfl, rfl⟩, rfl, fun _ => rfl⟩
  · rw [ho] at ho2
    cases ho2
    exact ⟨_, e, ⟨rfl, rfl, rfl, rfl⟩, rfl, fun hne => absurd hm2 hne⟩

theorem MarkStep.bwd {h h1 : Heap} (s : MarkStep h h1) {x : Nat} {o1 : object_t}
    (ho : h1 x = some o1) :
    ∃ o, h x = some o ∧ SameData o o1 ∧ o1.next = o.next := by
  rcases s x with e | ⟨o2, ho2, _, e⟩
  · exact ⟨o1, e ▸ ho, ⟨rfl, rfl, rfl, rfl⟩, rfl⟩
  · rw [ho] at e
    cases e
    exact ⟨o2, ho2, ⟨rfl, rfl, rfl, rfl⟩, rfl⟩

theorem MarkStep.none_iff {h h1 : Heap} (s : MarkStep h h1) (x : Nat) :
    h1 x = none ↔ h x = none := by
  constructor
  · intro e
    cases hx : h x with
    | none => rfl
    | some o =>
      obtain ⟨o1, ho1, _⟩ := s.fwd hx
      rw [e] at ho1
      cases ho1
  · intro e
    cases hx : h1 x with
    | none => rfl
    | some o1 =>
      obtain ⟨o, ho, _⟩ := s.bwd hx
      rw [e] at ho
      cases ho

theorem isMarked_of_eq {h : Heap} {x : Nat} {o : object_t} (ho : h x = some o) :
    isMarked h x = (o.marked != 0) := by
  simp [isMarked, ho]

theorem MarkStep.mono {h h1 : Heap} (s : MarkStep h h1) {x : Nat}
    (hm : isMarked h x = true) : isMarked h1 x = true := by
  cases hx : h x with
  | none => simp [isMarked, hx] at hm
  | some o =>
    rw [isMarked_of_eq hx] at hm
    obtain ⟨o1, ho1, _, _, hk⟩ := s.fwd hx
    have : o1 = o := hk (by simpa using hm)
    rw [isMarked_of_eq ho1, this]
    exact hm

/-- Reachability does not depend on the marks. -/
theorem Reachable.of_markStep {h h1 : Heap} (s : MarkStep h h1) {rs : List Ptr} {x : Nat}
    (r : Reachable h1 rs x) : Reachable h rs x := by
  induction r with
  | root hr => exact Reachable.root hr
  | left _ ho ht hl ih =>
    obtain ⟨o, ho0, hd, _⟩ := s.bwd ho
    exact Reachable.left ih ho0 (hd.1 ▸ ht) (hd.2.2.1 ▸ hl)
  | right _ ho ht hl ih =>
    obtain ⟨o, ho0, hd, _⟩ := s.bwd ho
    exact Reachable.right ih ho0 (hd.1 ▸ ht) (hd.2.2.2 ▸ hl)

theorem Reachable.to_markStep {h h1 : Heap} (s : MarkStep h h1) {rs : List Ptr} {x : Nat}
    (r : Reachable h rs x) : Reachable h1 rs x := by
  induction r with
  | root hr => exact Reachable.root hr
  | left _ ho ht hl ih =>
    obtain ⟨o1, ho1, hd, _⟩ := s.fwd ho
    exact Reachable.left ih ho1 (hd.1.trans ht) (hd.2.2.1.trans hl)
  | right _ ho ht hl ih =>
    obtain ⟨o1, ho1, hd, _⟩ := s.fwd ho
    exact Reachable.right ih ho1 (hd.1.trans ht) (hd.2.2.2.trans hl)

/-- Reachability is monotone in the set of starting points. -/
theorem Reachable.mono_roots {h : Heap} {rs rs1 : List Ptr} {x : Nat}
    (hsub : ∀ a, some a ∈ rs → Reachable h rs1 a) (r : Reachable h rs x) :
    Reachable h rs1 x := by
  induction r with
  | root hr => exact hsub _ hr
  | left _ ho ht hl ih => exact Reachable.left ih ho ht hl
  | right _ ho ht hl ih => exact Reachable.right ih ho ht hl

theorem ChildrenMarked.stable {h h1 : Heap} (s : MarkStep h h1) {x : Nat}
    (c : ChildrenMarked h x) : ChildrenMarked h1 x := by
  intro o1 ho1 ht
  obtain ⟨o, ho, hd, _⟩ := s.bwd ho1
  have hc := c o ho (hd.1 ▸ ht)
  exact ⟨fun b hb => s.mono (hc.1 b (hd.2.2.1 ▸ hb)), fun b hb => s.mono (hc.2 b (hd.2.2.2 ▸ hb))⟩

theorem mark_null (fuel : Nat) (h : Heap) : mark fuel h none = some h := by
  cases fuel <;> rfl

theorem isMarked_upd_other (h : Heap) (a : Nat) (v : Option object_t) (x : Nat) (hx : x ≠ a) :
    isMarked (upd h a v) x = isMarked h x := by
  simp [isMarked, upd_other _ _ _ _ hx]

theorem mark_spec (fuel : Nat) : ∀ (h : Heap) (p : Ptr) (h1 : Heap),
    mark fuel h p = some h1 → MarkPost h [p] h1 := by
  induction fuel with
  | zero =>
    intro h p h1 hm
    cases p with
    | none =>
      rw [mark_null] at hm
      cases hm
      exact ⟨MarkStep.refl h, fun a ha => by simp at ha, fun x h0 h1 => by simp [h0] at h1⟩
    | some a => simp [mark] at hm
  | succ fuel ih =>
    intro h p h' hm
    cases p with
    | none =>
      rw [mark_null] at hm
      cases hm
      exact ⟨MarkStep.refl h, fun a ha => by simp at ha, fun x h0 h1 => by simp [h0] at h1⟩
    | some a =>
      rw [mark] at hm
      cases ho : h a with
      | none => simp [ho] at hm
      | some o =>
        simp only [ho] at hm
        by_cases hmk : o.marked = 0
        · simp only [hmk, ne_eq, not_true_eq_false, ↓reduceIte] at hm
          have s0 : MarkStep h (upd h a (some { o with marked := 1 })) := MarkStep.set ho hmk
          have ma1 : isMarked (upd h a (some { o with marked := 1 })) a = true := by
            simp [isMarked, upd_same]
          have ra : Reachable h [some a] a := Reachable.root (by simp)
          by_cases ht : o.type = obj_type.PAIR_TYPE
          · simp only [if_pos ht] at hm
            cases hl : mark fuel (upd h a (some { o with marked := 1 })) o.left with
            | none => simp [hl] at hm
            | some h2 =>
              simp only [hl] at hm
              have p1 := ih _ _ _ hl
              have p2 := ih _ _ _ hm
              have s02 : MarkStep h h2 := s0.trans p1.step
              refine ⟨s02.trans p2.step, ?_, ?_⟩
              · intro b hb
                simp at hb
                subst hb
                exact p2.step.mono (p1.step.mono ma1)
              · intro x hx0 hx1
                by_cases hxa : x = a
                · subst hxa
                  refine ⟨?_, ra⟩
                  intro o' ho' ht'
                  obtain ⟨o0, ho0, hd, _⟩ := (s02.trans p2.step).bwd ho'
                  rw [ho] at ho0
                  cases ho0
                  constructor
                  · intro b hb
                    exact p2.step.mono (p1.roots b (by simp [← hd.2.2.1, hb]))
                  · intro b hb
                    exact p2.roots b (by simp [← hd.2.2.2, hb])
                · have hx01 : isMarked (upd h a (some { o with marked := 1 })) x = false := by
                    rw [isMarked_upd_other _ _ _ _ hxa]
                    exact hx0
                  cases hx2 : isMarked h2 x with
                  | true =>
                    obtain ⟨c, r⟩ := p1.fresh x hx01 hx2
                    refine ⟨c.stable p2.step, ?_⟩
                    refine Reachable.mono_roots ?_ (Reachable.of_markStep s0 r)
                    intro b hb
                    simp at hb
                    exact Reachable.left ra ho ht hb.symm
                  | false =>
                    obtain ⟨c, r⟩ := p2.fresh x hx2 hx1
                    refine ⟨c, ?_⟩
                    refine Reachable.mono_roots ?_ (Reachable.of_markStep s02 r)
                    intro b hb
                    simp at hb
                    exact Reachable.right ra ho ht hb.symm
          · simp only [if_neg ht] at hm
            cases hm
            refine ⟨s0, ?_, ?_⟩
            · intro b hb
              simp at hb
              subst hb
              exact ma1
            · intro x hx0 hx1
              by_cases hxa : x = a
              · subst hxa
                refine ⟨?_, ra⟩
                intro o' ho' ht'
                rw [upd_same] at ho'
                cases ho'
                exact absurd ht' ht
              · rw [isMarked_upd_other _ _ _ _ hxa, hx0] at hx1
                cases hx1
        · simp only [ne_eq, hmk, not_false_eq_true, ↓reduceIte] at hm
          cases hm
          refine ⟨MarkStep.refl h, ?_, ?_⟩
          · intro b hb
            simp at hb
            subst hb
            rw [isMarked_of_eq ho]
            simpa using hmk
          · intro x hx0 hx1
            rw [hx0] at hx1
            cases hx1

theorem markRoots_spec (fuel : Nat) : ∀ (rs : List Ptr) (h h1 : Heap),
    markRoots fuel rs h = some h1 → MarkPost h rs h1 := by
  intro rs
  induction rs with
  | nil =>
    intro h h1 hm
    simp [markRoots] at hm
    subst hm
    exact ⟨MarkStep.refl h, fun a ha => by simp at ha, fun x h0 h1 => by simp [h0] at h1⟩
  | cons p ps ih =>
    intro h h' hm
    rw [markRoots] at hm
    cases hp : mark fuel h p with
    | none => simp [hp] at hm
    | some h1 =>
      simp only [hp] at hm
      have p1 := mark_spec fuel _ _ _ hp
      have p2 := ih _ _ hm
      refine ⟨p1.step.trans p2.step, ?_, ?_⟩
      · intro a ha
        rcases List.mem_cons.1 ha with e | e
        · exact p2.step.mono (p1.roots a (by simp [e]))
        · exact p2.roots a e
      · intro x hx0 hx1
        cases hx2 : isMarked h1 x with
        | true =>
          obtain ⟨c, r⟩ := p1.fresh x hx0 hx2
          refine ⟨c.stable p2.step, Reachable.mono_roots ?_ r⟩
          intro b hb
          simp at hb
          exact Reachable.root (by simp [hb])
        | false =>
          obtain ⟨c, r⟩ := p2.fresh x hx2 hx1
          refine ⟨c, Reachable.mono_roots ?_ (Reachable.of_markStep p1.step r)⟩
          intro b hb
          exact Reachable.root (List.mem_cons_of_mem _ hb)

/-- Starting from clear marks on the reachable objects, a completed marking has
marked exactly the reachable objects. -/
theorem marked_iff_reachable {h h1 : Heap} {rs : List Ptr} (post : MarkPost h rs h1)
    (clear : ∀ x, Reachable h rs x → isMarked h x = false) (x : Nat)
    (hx : isMarked h x = false) :
    isMarked h1 x = true ↔ Reachable h rs x := by
  constructor
  · intro hm
    exact (post.fresh x hx hm).2
  · intro r
    clear hx
    induction r with
    | root hr => exact post.roots _ hr
    | left ra ho ht hl ih =>
      obtain ⟨o1, ho1, hd, _⟩ := post.step.fwd ho
      exact ((post.fresh _ (clear _ ra) ih).1 o1 ho1 (hd.1.trans ht)).1 _ (hd.2.2.1.trans hl)
    | right ra ho ht hl ih =>
      obtain ⟨o1, ho1, hd, _⟩ := post.step.fwd ho
      exact ((post.fresh _ (clear _ ra) ih).1 o1 ho1 (hd.1.trans ht)).2 _ (hd.2.2.2.trans hl)

/-! ## Marking terminates -/

theorem Closed.preserved {h h1 : Heap} {L : List Nat} (s : MarkStep h h1) (c : Closed h L) :
    Closed h1 L := by
  intro a ha
  obtain ⟨o, ho, he⟩ := c a ha
  obtain ⟨o1, ho1, hd, _⟩ := s.fwd (Option.mem_def.1 ho)
  refine ⟨o1, Option.mem_def.2 ho1, ?_⟩
  intro ht
  have := he (hd.1 ▸ ht)
  rw [hd.2.2.1, hd.2.2.2]
  exact this

theorem countP_lt_of_flip {p q : Nat → Bool} : ∀ (L : List Nat) (a : Nat),
    (∀ x, p x = true → q x = true) → a ∈ L → p a = false → q a = true →
    L.countP p < L.countP q := by
  intro L
  induction L with
  | nil => intro a _ ha; simp at ha
  | cons x t ih =>
    intro a hpq ha hpa hqa
    have hmono : t.countP p ≤ t.countP q := List.countP_mono_left (fun y _ hy => hpq y hy)
    rw [List.countP_cons, List.countP_cons]
    rcases List.mem_cons.1 ha with e | e
    · subst e
      simp [hpa, hqa]
      omega
    · have := ih a hpq e hpa hqa
      by_cases hx : p x = true
      · simp [hx, hpq x hx]
        omega
      · simp [hx]
        omega

theorem unmarkedCount_step {h h1 : Heap} (s : MarkStep h h1) (L : List Nat) :
    unmarkedCount h1 L ≤ unmarkedCount h L := by
  refine List.countP_mono_left ?_
  intro x _ hx
  cases h0 : isMarked h x with
  | false => rfl
  | true => simp [s.mono h0] at hx

theorem unmarkedCount_set {h : Heap} {a : Nat} {o : object_t} {L : List Nat} (ha : a ∈ L)
    (ho : h a = some o) (hm : o.marked = 0) :
    unmarkedCount (upd h a (some { o with marked := 1 })) L < unmarkedCount h L := by
  refine countP_lt_of_flip L a ?_ ha ?_ ?_
  · intro x hx
    cases h0 : isMarked h x with
    | false => rfl
    | true => simp [(MarkStep.set ho hm).mono h0] at hx
  · simp [isMarked, upd_same]
  · simp [isMarked, ho, hm]

theorem mark_total (L : List Nat) (fuel : Nat) : ∀ (h : Heap) (p : Ptr),
    Closed h L → PtrIn p L → unmarkedCount h L + 1 ≤ fuel → ∃ h1, mark fuel h p = some h1 := by
  induction fuel with
  | zero => intro h p _ _ hf; omega
  | succ fuel ih =>
    intro h p hc hp hf
    cases p with
    | none => exact ⟨h, mark_null _ h⟩
    | some a =>
      have haL : a ∈ L := hp a rfl
      obtain ⟨o, ho, he⟩ := hc a haL
      have ho : h a = some o := Option.mem_def.1 ho
      rw [mark]
      simp only [ho]
      by_cases hmk : o.marked = 0
      · rw [if_neg (not_not.2 hmk)]
        have s0 : MarkStep h (upd h a (some { o with marked := 1 })) := MarkStep.set ho hmk
        have hlt := unmarkedCount_set haL ho hmk
        by_cases ht : o.type = obj_type.PAIR_TYPE
        · simp only [if_pos ht]
          obtain ⟨h2, hl⟩ := ih _ o.left (hc.preserved s0) (he ht).1 (by omega)
          simp only [hl]
          have s1 := (mark_spec fuel _ _ _ hl).step
          have hle := unmarkedCount_step s1 L
          exact ih _ o.right ((hc.preserved s0).preserved s1) (he ht).2 (by omega)
        · simp only [if_neg ht]
          exact ⟨_, rfl⟩
      · rw [if_pos hmk]
        exact ⟨_, rfl⟩

theorem markRoots_total (L : List Nat) (fuel : Nat) : ∀ (rs : List Ptr) (h : Heap),
    Closed h L → (∀ p ∈ rs, PtrIn p L) → L.length + 1 ≤ fuel →
    ∃ h1, markRoots fuel rs h = some h1 := by
  intro rs
  induction rs with
  | nil => intro h _ _ _; exact ⟨h, rfl⟩
  | cons p ps ih =>
    intro h hc hr hf
    have hcount : unmarkedCount h L ≤ L.length := List.countP_le_length _
    obtain ⟨h1, hp⟩ := mark_total L fuel h p hc (hr p (List.mem_cons_self _ _)) (by omega)
    rw [markRoots]
    simp only [hp]
    exact ih h1 (hc.preserved (mark_spec fuel _ _ _ hp).step)
      (fun q hq => hr q (List.mem_cons_of_mem _ hq)) hf

/-! ## Marking sets each mark at most once -/

theorem markLog_null (fuel : Nat) (h : Heap) : markLog fuel h none = some (h, []) := by
  cases fuel <;> rfl

/-- The instrumented function computes the same heap as `mark`. -/
theorem markLog_fst (fuel : Nat) : ∀ (h : Heap) (p : Ptr),
    (markLog fuel h p).map Prod.fst = mark fuel h p := by
  induction fuel with
  | zero =>
    intro h p
    cases p with
    | none => rw [markLog_null, mark_null]; rfl
    | some a => rfl
  | succ fuel ih =>
    intro h p
    cases p with
    | none => rw [markLog_null, mark_null]; rfl
    | some a =>
      rw [markLog, mark]
      cases ho : h a with
      | none => rfl
      | some o =>
        simp only
        by_cases hmk : o.marked = 0
        · rw [if_neg (not_not.2 hmk), if_neg (not_not.2 hmk)]
          by_cases ht : o.type = obj_type.PAIR_TYPE
          · simp only [if_pos ht]
            rw [← ih _ o.left]
            cases hl : markLog fuel (upd h a (some { o with marked := 1 })) o.left with
            | none => rfl
            | some r1 =>
              obtain ⟨h2, w1⟩ := r1
              simp only [Option.map_some']
              rw [← ih h2 o.right]
              cases hr : markLog fuel h2 o.right with
              | none => rfl
              | some r2 => rfl
          · simp only [if_neg ht, Option.map_some']
        · rw [if_pos hmk, if_pos hmk]
          rfl

theorem markLog_mark {fuel : Nat} {h h1 : Heap} {p : Ptr} {w : List Nat}
    (e : markLog fuel h p = some (h1, w)) : mark fuel h p = some h1 := by
  rw [← markLog_fst, e]
  rfl

theorem MarkStep.unmarked {h h1 : Heap} (s : MarkStep h h1) {x : Nat}
    (hx : isMarked h1 x = false) : isMarked h x = false := by
  cases h0 : isMarked h x with
  | false => rfl
  | true => rw [s.mono h0] at hx; cases hx

/-- The log of `markLog` has no repetition and lists exactly the objects whose
mark went from clear to set. -/
theorem markLog_spec (fuel : Nat) : ∀ (h : Heap) (p : Ptr) (h1 : Heap) (w : List Nat),
    markLog fuel h p = some (h1, w) →
    w.Nodup ∧ ∀ x, x ∈ w ↔ (isMarked h x = false ∧ isMarked h1 x = true) := by
  induction fuel with
  | zero =>
    intro h p h1 w e
    cases p with
    | none =>
      rw [markLog_null] at e
      cases e
      exact ⟨List.nodup_nil, fun x => by simp⟩
    | some a => simp [markLog] at e
  | succ fuel ih =>
    intro h p h3 w e
    cases p with
    | none =>
      rw [markLog_null] at e
      cases e
      exact ⟨List.nodup_nil, fun x => by simp⟩
    | some a =>
      rw [markLog] at e
      cases ho : h a with
      | none => simp [ho] at e
      | some o =>
        simp only [ho] at e
        by_cases hmk : o.marked = 0
        · rw [if_neg (not_not.2 hmk)] at e
          have s0 : MarkStep h (upd h a (some { o with marked := 1 })) := MarkStep.set ho hmk
          have ma0 : isMarked h a = false := by simp [isMarked, ho, hmk]
          have ma1 : isMarked (upd h a (some { o with marked := 1 })) a = true := by
            simp [isMarked, upd_same]
          by_cases ht : o.type = obj_type.PAIR_TYPE
          · simp only [if_pos ht] at e
            cases hl : markLog fuel (upd h a (some { o with marked := 1 })) o.left with
            | none => simp [hl] at e
            | some r1 =>
              obtain ⟨h2, w1⟩ := r1
              simp only [hl] at e
              cases hr : markLog fuel h2 o.right with
              | none => simp [hr] at e
              | some r2 =>
                obtain ⟨h3', w2⟩ := r2
                simp only [hr, Option.some.injEq, Prod.mk.injEq] at e
                obtain ⟨e1, e2⟩ := e
                subst e1 e2
                have s1 := (mark_spec fuel _ _ _ (markLog_mark hl)).step
                have s2 := (mark_spec fuel _ _ _ (markLog_mark hr)).step
                obtain ⟨n1, m1⟩ := ih _ _ _ _ hl
                obtain ⟨n2, m2⟩ := ih _ _ _ _ hr
                constructor
                · rw [List.nodup_cons, List.mem_append, List.nodup_append]
                  refine ⟨?_, n1, n2, ?_⟩
                  · rintro (ha | ha)
                    · rw [((m1 a).1 ha).1] at ma1
                      cases ma1
                    · have := ((m2 a).1 ha).1
                      rw [s1.mono ma1] at this
                      cases this
                  · intro x hx1 hx2
                    have := ((m2 x).1 hx2).1
                    rw [((m1 x).1 hx1).2] at this
                    cases this
                · intro x
                  rw [List.mem_cons, List.mem_append, m1, m2]
                  constructor
                  · rintro (hx | hx | hx)
                    · subst hx
                      exact ⟨ma0, s2.mono (s1.mono ma1)⟩
                    · exact ⟨s0.unmarked hx.1, s2.mono hx.2⟩
                    · exact ⟨(s0.trans s1).unmarked hx.1, hx.2⟩
                  · rintro ⟨hx0, hx3⟩
                    by_cases hxa : x = a
                    · exact Or.inl hxa
                    · right
                      have hx1 : isMarked (upd h a (some { o with marked := 1 })) x = false := by
                        rw [isMarked_upd_other _ _ _ _ hxa]
                        exact hx0
                      cases hx2 : isMarked h2 x with
                      | true => exact Or.inl ⟨hx1, rfl⟩
                      | false => exact Or.inr ⟨rfl, hx3⟩
          · simp only [if_neg ht, Option.some.injEq, Prod.mk.injEq] at e
            obtain ⟨e1, e2⟩ := e
            subst e1 e2
            refine ⟨List.nodup_singleton a, ?_⟩
            intro x
            rw [List.mem_singleton]
            constructor
            · intro hx
              subst hx
              exact ⟨ma0, ma1⟩
            · rintro ⟨hx0, hx1⟩
              by_contra hxa
              rw [isMarked_upd_other _ _ _ _ hxa, hx0] at hx1
              cases hx1
        · rw [if_pos hmk] at e
          simp only [Option.some.injEq, Prod.mk.injEq] at e
          obtain ⟨e1, e2⟩ := e
          subst e1 e2
          exact ⟨List.nodup_nil, fun x => by simp⟩

/-! ## The all-objects list as a chain -/

theorem Chain.frame {h h1 : Heap} : ∀ {L : List Nat} {p : Ptr},
    (∀ x ∈ L, h1 x = h x) → Chain h p L → Chain h1 p L := by
  intro L
  induction L with
  | nil => intro p _ c; exact c
  | cons a l ih =>
    intro p hf c
    obtain ⟨hp, o, ho, hc⟩ := c
    refine ⟨hp, o, ?_, ih (fun x hx => hf x (List.mem_cons_of_mem _ hx)) hc⟩
    rw [Option.mem_def] at ho ⊢
    rw [hf a (List.mem_cons_self _ _)]
    exact ho

theorem Chain.markStep {h h1 : Heap} (s : MarkStep h h1) : ∀ {L : List Nat} {p : Ptr},
    Chain h p L → Chain h1 p L := by
  intro L
  induction L with
  | nil => intro p c; exact c
  | cons a l ih =>
    intro p c
    obtain ⟨hp, o, ho, hc⟩ := c
    obtain ⟨o1, ho1, _, hn, _⟩ := s.fwd (Option.mem_def.1 ho)
    exact ⟨hp, o1, Option.mem_def.2 ho1, hn ▸ ih hc⟩

theorem Chain.functional {h : Heap} : ∀ {L L1 : List Nat} {p : Ptr},
    Chain h p L → Chain h p L1 → L = L1 := by
  intro L
  induction L with
  | nil =>
    intro L1 p c c1
    cases L1 with
    | nil => rfl
    | cons b t =>
      have e : p = none := c
      rw [e] at c1
      cases c1.1
  | cons a l ih =>
    intro L1 p c c1
    obtain ⟨hp, o, ho, hc⟩ := c
    cases L1 with
    | nil =>
      have e : p = none := c1
      rw [e] at hp
      cases hp
    | cons b t =>
      obtain ⟨hp1, o1, ho1, hc1⟩ := c1
      rw [hp] at hp1
      cases hp1
      rw [Option.mem_def] at ho ho1
      rw [ho] at ho1
      cases ho1
      rw [ih hc hc1]

theorem Chain.alloc {h : Heap} : ∀ {L : List Nat} {p : Ptr},
    Chain h p L → ∀ a ∈ L, ∃ o, h a = some o := by
  intro L
  induction L with
  | nil => intro p _ a ha; simp at ha
  | cons b t ih =>
    intro p c a ha
    obtain ⟨_, o, ho, hc⟩ := c
    rcases List.mem_cons.1 ha with e | e
    · exact ⟨o, e ▸ Option.mem_def.1 ho⟩
    · exact ih hc a e

theorem Chain.tail_of_mem {h : Heap} : ∀ {L : List Nat} {p : Ptr} {a : Nat},
    Chain h p L → a ∈ L → ∃ t, t.length < L.length ∧ ∃ o, h a = some o ∧ Chain h o.next t := by
  intro L
  induction L with
  | nil => intro p a _ ha; simp at ha
  | cons b l ih =>
    intro p a c ha
    obtain ⟨_, o, ho, hc⟩ := c
    rcases List.mem_cons.1 ha with e | e
    · subst e
      exact ⟨l, by simp, o, Option.mem_def.1 ho, hc⟩
    · obtain ⟨t, ht, r⟩ := ih hc e
      exact ⟨t, by simp; omega, r⟩

/-- A `NULL`-terminated chain never visits an address twice. -/
theorem Chain.nodup {h : Heap} : ∀ {L : List Nat} {p : Ptr}, Chain h p L → L.Nodup := by
  intro L
  induction L with
  | nil => intro _ _; exact List.nodup_nil
  | cons a l ih =>
    intro p c
    obtain ⟨_, o, ho, hc⟩ := c
    rw [List.nodup_cons]
    refine ⟨?_, ih hc⟩
    intro ha
    obtain ⟨t, ht, o1, ho1, hc1⟩ := hc.tail_of_mem ha
    rw [Option.mem_def.1 ho] at ho1
    cases ho1
    have := Chain.functional hc hc1
    rw [this] at ht
    exact lt_irrefl _ ht

/-! ## Sweeping -/

theorem isMarked_congr {h h1 : Heap} {x : Nat} (e : h1 x = h x) :
    isMarked h1 x = isMarked h x := by
  simp [isMarked, e]

theorem readLoc_congr {vm vm1 : VM} {l : Loc} (hf : vm1.first_obj = vm.first_obj)
    (hh : ∀ b, l = Loc.nextOf b → vm1.heap b = vm.heap b) : readLoc vm1 l = readLoc vm l := by
  cases l with
  | head => simp [readLoc, hf]
  | nextOf b => simp [readLoc, hh b rfl]

theorem readLoc_nextOf {vm : VM} {a : Nat} {o : object_t} (ho : vm.heap a = some o) :
    readLoc vm (Loc.nextOf a) = some o.next := by
  simp [readLoc, ho]

/-- The effect of the assignment `*obj = p`. -/
theorem writeLoc_spec (vm : VM) (l : Loc) (p : Ptr)
    (hok : ∀ b, l = Loc.nextOf b → ∃ o, vm.heap b = some o) :
    ∃ vm1, writeLoc vm l p = some vm1 ∧
    readLoc vm1 l = some p ∧
    (∀ x, l ≠ Loc.nextOf x → vm1.heap x = vm.heap x) ∧
    (∀ b, l = Loc.nextOf b → ∀ o, vm.heap b = some o →
      vm1.heap b = some { o with next := p }) ∧
    vm1.STACK = vm.STACK ∧ vm1.stack_size = vm.stack_size ∧
    vm1.maxObjects = vm.maxObjects ∧
    vm1.numObjects = vm.numObjects ∧
    (l ≠ Loc.head → vm1.first_obj = vm.first_obj) := by
  cases l with
  | head =>
    exact ⟨_, rfl, rfl, fun _ _ => rfl, fun b hb => (by cases hb), rfl, rfl, rfl, rfl,
      fun hne => absurd rfl hne⟩
  | nextOf b =>
    obtain ⟨o, ho⟩ := hok b rfl
    have e : writeLoc vm (Loc.nextOf b) p =
        some { vm with heap := upd vm.heap b (some { o with next := p }) } := by
      simp [writeLoc, ho]
    refine ⟨_, e, ?_, ?_, ?_, rfl, rfl, rfl, rfl, fun _ => rfl⟩
    · simp [readLoc, upd_same]
    · intro x hx
      have : x ≠ b := fun hxb => hx (by rw [hxb])
      exact upd_other _ _ _ _ this
    · intro b1 hb1 o1 ho1
      cases hb1
      rw [ho] at ho1
      cases ho1
      exact upd_same _ _ _

theorem sweepLoop_spec : ∀ (L : List Nat) (fuel : Nat) (vm : VM) (l : Loc) (p : Ptr),
    readLoc vm l = some p → Chain vm.heap p L → LocOK vm l L → L.length + 1 ≤ fuel →
    ∃ vm1, sweepLoop fuel vm l = some vm1 ∧ SweepPost vm l L vm1 := by
  intro L
  induction L with
  | nil =>
    intro fuel vm l p hr hc _ hf
    obtain ⟨f, rfl⟩ : ∃ f, fuel = f + 1 := ⟨fuel - 1, by omega⟩
    have hp : p = none := hc
    subst hp
    refine ⟨vm, by rw [sweepLoop]; simp only [hr], ?_⟩
    exact
      { chain := ⟨none, hr, hc⟩
        kept := fun x hx => by simp at hx
        freed := fun x hx => by simp at hx
        frame := fun _ _ _ => rfl
        cell := fun b _ o ho => ⟨o, ho, ⟨rfl, rfl, rfl, rfl⟩, rfl⟩
        count := by simp
        stack := ⟨rfl, rfl, rfl⟩
        first := fun _ => rfl }
  | cons a t ih =>
    intro fuel vm l p hr hc hok hf
    obtain ⟨f, rfl⟩ : ∃ f, fuel = f + 1 := ⟨fuel - 1, by omega⟩
    have hnd := hc.nodup
    rw [List.nodup_cons] at hnd
    obtain ⟨hat, _⟩ := hnd
    obtain ⟨hp, o, ho, hct⟩ := hc
    subst hp
    rw [Option.mem_def] at ho
    have hf1 : t.length + 1 ≤ f := by simp at hf; omega
    have hla : l ≠ Loc.nextOf a := fun e => (hok a e).1 (List.mem_cons_self _ _)
    have hlt : ∀ x ∈ t, l ≠ Loc.nextOf x :=
      fun x hx e => (hok x e).1 (List.mem_cons_of_mem _ hx)
    have hxa : ∀ x ∈ t, x ≠ a := fun x hx e => hat (e ▸ hx)
    have hba : ∀ b, l = Loc.nextOf b → b ≠ a := fun b hb e => hla (by rw [← e]; exact hb)
    rw [sweepLoop]
    simp only [hr, ho]
    by_cases hmk : o.marked = 0
    · -- the node is garbage: unlink it, release it, keep the cursor
      rw [if_pos hmk]
      have hm0 : isMarked vm.heap a = false := by simp [isMarked, ho, hmk]
      obtain ⟨vm1, w0, w1, w2, w3, w4, w5, w6, w7, w8⟩ :=
        writeLoc_spec vm l o.next (fun b hb => (hok b hb).2)
      simp only [w0]
      have heapT : ∀ x ∈ t, upd vm1.heap a none x = vm.heap x := fun x hx => by
        rw [upd_other _ _ _ _ (hxa x hx), w2 x (hlt x hx)]
      have hread : readLoc { vm1 with heap := upd vm1.heap a none,
                                      numObjects := vm1.numObjects - 1 } l = some o.next := by
        rw [← w1]
        refine readLoc_congr rfl ?_
        intro b hb
        exact upd_other _ _ _ _ (hba b hb)
      have hc2 : Chain (upd vm1.heap a none) o.next t := Chain.frame heapT hct
      have hok2 : LocOK { vm1 with heap := upd vm1.heap a none,
                                   numObjects := vm1.numObjects - 1 } l t := by
        intro b hb
        obtain ⟨hbn, ob, hob⟩ := hok b hb
        refine ⟨fun hbt => hbn (List.mem_cons_of_mem _ hbt), { ob with next := o.next }, ?_⟩
        show upd vm1.heap a none b = _
        rw [upd_other _ _ _ _ (hba b hb)]
        exact w3 b hb ob hob
      obtain ⟨vm', hs, post⟩ := ih f _ l _ hread hc2 hok2 hf1
      refine ⟨vm', hs, ?_⟩
      have hfl : ∀ (g : Heap → Nat → Bool), (∀ x ∈ t, g (upd vm1.heap a none) x = g vm.heap x) →
          t.filter (g (upd vm1.heap a none)) = t.filter (g vm.heap) :=
        fun g hg => List.filter_congr hg
      have e1 : t.filter (isMarked (upd vm1.heap a none)) = t.filter (isMarked vm.heap) :=
        hfl isMarked (fun x hx => isMarked_congr (heapT x hx))
      have e2 : t.filter (fun x => !isMarked (upd vm1.heap a none) x) =
          t.filter (fun x => !isMarked vm.heap x) :=
        List.filter_congr (fun x hx => by rw [isMarked_congr (heapT x hx)])
      exact
        { chain := by
            obtain ⟨p1, hp1, hch⟩ := post.chain
            simp only [e1] at hch
            exact ⟨p1, hp1, by simpa [List.filter_cons, hm0] using hch⟩
          kept := by
            intro x hx hxm
            rcases List.mem_cons.1 hx with e | e
            · rw [e, hm0] at hxm
              cases hxm
            · have := post.kept x e (by rw [← hxm]; exact isMarked_congr (heapT x e))
              simpa [heapT x e] using this
          freed := by
            intro x hx hxm
            rcases List.mem_cons.1 hx with e | e
            · subst e
              have := post.frame x hat hla
              rw [this]
              exact upd_same _ _ _
            · exact post.freed x e (by rw [← hxm]; exact isMarked_congr (heapT x e))
          frame := by
            intro x hx hlx
            rw [List.mem_cons, not_or] at hx
            rw [post.frame x hx.2 hlx]
            show upd vm1.heap a none x = _
            rw [upd_other _ _ _ _ hx.1, w2 x hlx]
          cell := by
            intro b hb ob hob
            have h2 : upd vm1.heap a none b = some { ob with next := o.next } := by
              rw [upd_other _ _ _ _ (hba b hb)]
              exact w3 b hb ob hob
            obtain ⟨o1, h1, hd, hmm⟩ := post.cell b hb _ h2
            exact ⟨o1, h1, hd, hmm⟩
          count := by
            rw [post.count]
            simp only [e2]
            simp [List.filter_cons, hm0, w7]
            omega
          stack := by
            obtain ⟨p1, p2, p3⟩ := post.stack
            exact ⟨p1.trans w4, p2.trans w5, p3.trans w6⟩
          first := fun hne => (post.first hne).trans (w8 hne) }
    · -- the node is live: clear its mark and advance the cursor
      rw [if_neg hmk]
      have hm1 : isMarked vm.heap a = true := by simpa [isMarked, ho] using hmk
      have heapT : ∀ x ∈ t, upd vm.heap a (some { o with marked := 0 }) x = vm.heap x :=
        fun x hx => upd_other _ _ _ _ (hxa x hx)
      have hc2 : Chain (upd vm.heap a (some { o with marked := 0 })) o.next t :=
        Chain.frame heapT hct
      have hread : readLoc { vm with heap := upd vm.heap a (some { o with marked := 0 }) }
          (Loc.nextOf a) = some o.next := by
        simp [readLoc, upd_same]
      have hok2 : LocOK { vm with heap := upd vm.heap a (some { o with marked := 0 }) }
          (Loc.nextOf a) t := by
        intro b hb
        cases hb
        exact ⟨hat, _, upd_same _ _ _⟩
      obtain ⟨vm', hs, post⟩ := ih f _ (Loc.nextOf a) _ hread hc2 hok2 hf1
      refine ⟨vm', hs, ?_⟩
      have e1 : t.filter (isMarked (upd vm.heap a (some { o with marked := 0 }))) =
          t.filter (isMarked vm.heap) :=
        List.filter_congr (fun x hx => isMarked_congr (heapT x hx))
      have e2 : t.filter (fun x => !isMarked (upd vm.heap a (some { o with marked := 0 })) x) =
          t.filter (fun x => !isMarked vm.heap x) :=
        List.filter_congr (fun x hx => by rw [isMarked_congr (heapT x hx)])
      have hcell : ∀ b, l = Loc.nextOf b → vm'.heap b = vm.heap b := by
        intro b hb
        obtain ⟨hbn, _⟩ := hok b hb
        rw [List.mem_cons, not_or] at hbn
        have hne : Loc.nextOf a ≠ Loc.nextOf b := fun e => hbn.1 (by cases e; rfl)
        rw [post.frame b hbn.2 hne]
        exact upd_other _ _ _ _ hbn.1
      obtain ⟨oa, hoa, hda, hma⟩ := post.cell a rfl _ (upd_same _ _ _)
      exact
        { chain := by
            obtain ⟨p1, hp1, hch⟩ := post.chain
            simp only [e1] at hch
            rw [readLoc_nextOf hoa] at hp1
            cases hp1
            have hrl : readLoc vm' l = some (some a) := by
              rw [← hr]
              exact readLoc_congr (post.first (by simp)) hcell
            simp only [List.filter_cons, hm1, if_true]
            exact ⟨some a, hrl, rfl, oa, Option.mem_def.2 hoa, hch⟩
          kept := by
            intro x hx hxm
            rcases List.mem_cons.1 hx with e | e
            · subst e
              exact ⟨o, oa, ho, hoa, hda, hma⟩
            · have := post.kept x e (by rw [← hxm]; exact isMarked_congr (heapT x e))
              simpa [heapT x e] using this
          freed := by
            intro x hx hxm
            rcases List.mem_cons.1 hx with e | e
            · rw [e, hm1] at hxm
              cases hxm
            · exact post.freed x e (by rw [← hxm]; exact isMarked_congr (heapT x e))
          frame := by
            intro x hx _
            rw [List.mem_cons, not_or] at hx
            have hne : Loc.nextOf a ≠ Loc.nextOf x := fun e => hx.1 (by cases e; rfl)
            rw [post.frame x hx.2 hne]
            exact upd_other _ _ _ _ hx.1
          cell := by
            intro b hb ob hob
            exact ⟨ob, (hcell b hb).trans hob, ⟨rfl, rfl, rfl, rfl⟩, rfl⟩
          count := by
            rw [post.count]
            simp only [e2]
            simp [List.filter_cons, hm1]
          stack := post.stack
          first := fun _ => post.first (by simp) }

/-! ## A whole collection on a well-formed state -/

theorem SameData.compose {o o1 o2 : object_t} (d1 : SameData o o1) (d2 : SameData o1 o2) :
    SameData o o2 :=
  ⟨d2.1.trans d1.1, d2.2.1.trans d1.2.1, d2.2.2.1.trans d1.2.2.1, d2.2.2.2.trans d1.2.2.2⟩

theorem WellFormed.closed {vm : VM} {L : List Nat} (w : WellFormed vm L) : Closed vm.heap L := by
  intro a ha
  obtain ⟨o, ho⟩ := w.1.alloc a ha
  exact ⟨o, Option.mem_def.2 ho, w.2.2.1 a ha o (Option.mem_def.2 ho)⟩

theorem WellFormed.reach_mem {vm : VM} {L : List Nat} (w : WellFormed vm L) {a : Nat}
    (r : Reach vm a) : a ∈ L := by
  induction r with
  | root hr => exact w.2.1 _ hr _ rfl
  | left _ ho ht hl ih =>
    exact (w.2.2.1 _ ih _ (Option.mem_def.2 ho) ht).1 _ (Option.mem_def.2 hl)
  | right _ ho ht hl ih =>
    exact (w.2.2.1 _ ih _ (Option.mem_def.2 ho) ht).2 _ (Option.mem_def.2 hl)

theorem gc_spec (vm : VM) (L : List Nat) (fuel : Nat) (w : WellFormed vm L)
    (hf : L.length + 1 ≤ fuel) :
    ∃ vm1 keep, gc fuel vm = some vm1 ∧ GcPost vm L vm1 keep := by
  obtain ⟨hm, hmr⟩ := markRoots_total L fuel (roots vm) vm.heap w.closed w.2.1 hf
  have post := markRoots_spec fuel _ _ _ hmr
  have hclear : ∀ x, Reachable vm.heap (roots vm) x → isMarked vm.heap x = false :=
    fun x r => w.2.2.2 x (w.reach_mem r)
  have hchain : Chain hm vm.first_obj L := Chain.markStep post.step w.1
  obtain ⟨vm2, hs, sp⟩ := sweepLoop_spec L fuel { vm with heap := hm } Loc.head _ rfl hchain
    (fun b hb => by cases hb) hf
  refine ⟨{ vm2 with maxObjects :=
      if vm2.numObjects = 0 then INIT_OBJ_NUM_MAX else vm2.numObjects * 2 }, isMarked hm, ?_, ?_⟩
  · simp only [gc, markAll, hmr, sweep, hs]
  · exact
      { keep_iff := fun a ha => marked_iff_reachable post hclear a (w.2.2.2 a ha)
        chain := by
          obtain ⟨p1, hp1, hch⟩ := sp.chain
          cases hp1
          exact hch
        kept := by
          intro x hx hk
          obtain ⟨o, o1, ho, ho1, hd, hmk⟩ := sp.kept x hx hk
          obtain ⟨o0, ho0, hd0, _⟩ := post.step.bwd ho
          exact ⟨o0, o1, ho0, ho1, hd0.compose hd, hmk⟩
        freed := sp.freed
        frame := by
          intro x hx
          have e1 : vm2.heap x = hm x := sp.frame x hx (by simp)
          show vm2.heap x = vm.heap x
          rw [e1]
          rcases post.step x with e | ⟨o, ho, hmk, e⟩
          · exact e
          · exfalso
            have h0 : isMarked vm.heap x = false := by simp [isMarked, ho, hmk]
            have h1 : isMarked hm x = true := by simp [isMarked, e]
            exact hx (w.reach_mem (post.fresh x h0 h1).2)
        count := sp.count
        stack := ⟨sp.stack.1, sp.stack.2.1⟩
        max := rfl }

/-- The cyclic state of `GC_test4` is well-formed. -/
theorem cycleVM_wellFormed : WellFormed cycleVM [60, 50, 40, 30, 20, 10] := by decide

/-- Scenario `GC_test4`: four objects remain after the collection. -/
theorem cycleVM_collect_count : (gc 7 cycleVM).map (fun vm => vm.numObjects) = some 4 := by decide

/-- Scenario `GC_test4`: the surviving list is the two pairs and the scalars at 50 and 20. -/
theorem cycleVM_collect_chain : (gc 7 cycleVM).map (fun vm => decide (Chain vm.heap vm.first_obj [60, 50, 30, 20])) =
    some true := by decide

/-! ## Claims about the collector -/

/-- C1 (reachability preservation).  On a well-formed VM state with all-objects
list `L`, `gc` returns, and every object that was transitively reachable from
the root set before the call is still in the all-objects list afterwards, with
the same type, value and edges and with its mark clear. -/
theorem gc_preserves_reachable (vm : VM) (L : List Nat) (fuel : Nat)
    (w : WellFormed vm L) (hf : L.length + 1 ≤ fuel) :
    ∃ vm1 L1, gc fuel vm = some vm1 ∧ Chain vm1.heap vm1.first_obj L1 ∧
      ∀ a, Reach vm a →
        a ∈ L1 ∧ ∃ o o1, vm.heap a = some o ∧ vm1.heap a = some o1 ∧
          SameData o o1 ∧ o1.marked = 0 := by
  obtain ⟨vm1, keep, hg, post⟩ := gc_spec vm L fuel w hf
  refine ⟨vm1, L.filter keep, hg, post.chain, ?_⟩
  intro a ra
  have haL := w.reach_mem ra
  have hk := (post.keep_iff a haL).2 ra
  exact ⟨List.mem_filter.2 ⟨haL, hk⟩, post.kept a haL hk⟩

theorem gc_preserves_reachable_witness :
    WellFormed cycleVM [60, 50, 40, 30, 20, 10] ∧
    ∃ vm1 L1, gc 7 cycleVM = some vm1 ∧ Chain vm1.heap vm1.first_obj L1 ∧
      ∀ a, Reach cycleVM a →
        a ∈ L1 ∧ ∃ o o1, cycleVM.heap a = some o ∧ vm1.heap a = some o1 ∧
          SameData o o1 ∧ o1.marked = 0 :=
  ⟨by decide, gc_preserves_reachable cycleVM [60, 50, 40, 30, 20, 10] 7 (by decide) (by decide)⟩

/-- C2 (reclamation completeness).  On a well-formed VM state with all-objects
list `L`, after `gc` every object left in the all-objects list was reachable
from the root set; the unreachable objects `G` of `L` are released and gone
from the list, `numObjects` has dropped by exactly their number, and that
number is the "Collected" figure `gc` prints. -/
theorem gc_reclaims_unreachable (vm : VM) (L : List Nat) (fuel : Nat)
    (w : WellFormed vm L) (hf : L.length + 1 ≤ fuel) :
    ∃ (vm1 : VM) (L1 G : List Nat), gc fuel vm = some vm1 ∧ Chain vm1.heap vm1.first_obj L1 ∧
      (∀ a ∈ L1, a ∈ L ∧ Reach vm a) ∧
      G.Nodup ∧ (∀ a, a ∈ G ↔ (a ∈ L ∧ ¬ Reach vm a)) ∧
      (∀ a ∈ G, a ∉ L1 ∧ vm1.heap a = none) ∧
      vm1.numObjects = vm.numObjects - (G.length : Int) ∧
      gcReport fuel vm = some ((G.length : Int), vm1.numObjects) := by
  obtain ⟨vm1, keep, hg, post⟩ := gc_spec vm L fuel w hf
  have hG : ∀ a, a ∈ L.filter (fun a => !keep a) ↔ (a ∈ L ∧ ¬ Reach vm a) := by
    intro a
    rw [List.mem_filter]
    constructor
    · rintro ⟨haL, hk⟩
      refine ⟨haL, fun r => ?_⟩
      rw [(post.keep_iff a haL).2 r] at hk
      cases hk
    · rintro ⟨haL, hr⟩
      refine ⟨haL, ?_⟩
      cases hk : keep a with
      | false => rfl
      | true => exact absurd ((post.keep_iff a haL).1 hk) hr
  refine ⟨vm1, L.filter keep, L.filter (fun a => !keep a), hg, post.chain, ?_,
    w.1.nodup.filter _, hG, ?_, post.count, ?_⟩
  · intro a ha
    rw [List.mem_filter] at ha
    exact ⟨ha.1, (post.keep_iff a ha.1).1 ha.2⟩
  · intro a ha
    have h1 := List.mem_filter.1 ha
    have hk : keep a = false := by simpa using h1.2
    refine ⟨fun h2 => ?_, post.freed a h1.1 hk⟩
    rw [(List.mem_filter.1 h2).2] at hk
    cases hk
  · simp only [gcReport, hg, post.count]
    congr 2
    omega

theorem gc_reclaims_unreachable_witness :
    WellFormed cycleVM [60, 50, 40, 30, 20, 10] ∧
    ∃ (vm1 : VM) (L1 G : List Nat), gc 9 cycleVM = some vm1 ∧ Chain vm1.heap vm1.first_obj L1 ∧
      (∀ a ∈ L1, a ∈ [60, 50, 40, 30, 20, 10] ∧ Reach cycleVM a) ∧
      G.Nodup ∧ (∀ a, a ∈ G ↔ (a ∈ [60, 50, 40, 30, 20, 10] ∧ ¬ Reach cycleVM a)) ∧
      (∀ a ∈ G, a ∉ L1 ∧ vm1.heap a = none) ∧
      vm1.numObjects = cycleVM.numObjects - (G.length : Int) ∧
      gcReport 9 cycleVM = some ((G.length : Int), vm1.numObjects) :=
  ⟨by decide, gc_reclaims_unreachable cycleVM [60, 50, 40, 30, 20, 10] 9 (by decide) (by decide)⟩

/-- C3 (cycle safety and termination).  On every finite object graph `K`
(every pair edge is `NULL` or leads back into `K`; cycles, aliasing and
existing marks allowed) `mark` returns within recursion depth `K.length + 1`,
the assignment `obj->marked = 1` is executed at most once per object and only
on objects whose mark was clear, and an object that was already marked is
left untouched.  Consequently `markAll`, `sweep` and `gc` return on every
well-formed VM state. -/
theorem mark_terminates_marks_once (h : Heap) (K : List Nat) (p : Ptr) (vm : VM)
    (L : List Nat) (fuel : Nat) (hc : Closed h K) (hp : PtrIn p K) (w : WellFormed vm L)
    (hK : K.length + 1 ≤ fuel) (hL : L.length + 1 ≤ fuel) :
    (∃ h1 log, mark fuel h p = some h1 ∧ markLog fuel h p = some (h1, log) ∧
      log.Nodup ∧ (∀ x ∈ log, isMarked h x = false) ∧
      (∀ x, isMarked h x = true → h1 x = h x)) ∧
    (∃ vm1, markAll fuel vm = some vm1) ∧
    (∃ vm2, sweep fuel vm = some vm2) ∧
    (∃ vm3, gc fuel vm = some vm3) := by
  refine ⟨?_, ?_, ?_, ?_⟩
  · have hcount : unmarkedCount h K ≤ K.length := List.countP_le_length _
    obtain ⟨h1, hm⟩ := mark_total K fuel h p hc hp (by omega)
    have hlog : ∃ log, markLog fuel h p = some (h1, log) := by
      have e := markLog_fst fuel h p
      rw [hm] at e
      cases hq : markLog fuel h p with
      | none => rw [hq] at e; cases e
      | some r =>
        rw [hq] at e
        obtain ⟨r1, r2⟩ := r
        simp only [Option.map_some', Option.some.injEq] at e
        subst e
        exact ⟨r2, rfl⟩
    obtain ⟨log, hl⟩ := hlog
    obtain ⟨hn, hmem⟩ := markLog_spec fuel h p h1 log hl
    refine ⟨h1, log, hm, hl, hn, fun x hx => ((hmem x).1 hx).1, ?_⟩
    intro x hx
    cases hox : h x with
    | none => simp [isMarked, hox] at hx
    | some o =>
      obtain ⟨o1, ho1, _, _, hk⟩ := (mark_spec fuel h p h1 hm).step.fwd hox
      rw [isMarked_of_eq hox] at hx
      rw [ho1, hk (by simpa using hx)]
  · obtain ⟨hm, hmr⟩ := markRoots_total L fuel (roots vm) vm.heap w.closed w.2.1 hL
    exact ⟨{ vm with heap := hm }, by simp only [markAll, hmr]⟩
  · obtain ⟨vm2, hs, _⟩ := sweepLoop_spec L fuel vm Loc.head _ rfl w.1
      (fun b hb => by cases hb) hL
    exact ⟨vm2, hs⟩
  · obtain ⟨vm3, _, hg, _⟩ := gc_spec vm L fuel w hL
    exact ⟨vm3, hg⟩

theorem mark_terminates_marks_once_witness :
    (Closed cycleVM.heap [60, 50, 40, 30, 20, 10] ∧ PtrIn (some 30) [60, 50, 40, 30, 20, 10] ∧
      WellFormed cycleVM [60, 50, 40, 30, 20, 10]) ∧
    ((∃ h1 log, mark 7 cycleVM.heap (some 30) = some h1 ∧
        markLog 7 cycleVM.heap (some 30) = some (h1, log) ∧
        log.Nodup ∧ (∀ x ∈ log, isMarked cycleVM.heap x = false) ∧
        (∀ x, isMarked cycleVM.heap x = true → h1 x = cycleVM.heap x)) ∧
      (∃ vm1, markAll 7 cycleVM = some vm1) ∧
      (∃ vm2, sweep 7 cycleVM = some vm2) ∧
      (∃ vm3, gc 7 cycleVM = some vm3)) :=
  ⟨⟨by decide, by decide, by decide⟩,
    mark_terminates_marks_once cycleVM.heap [60, 50, 40, 30, 20, 10] (some 30) cycleVM
      [60, 50, 40, 30, 20, 10] 7 (by decide) (by decide) (by decide) (by decide) (by decide)⟩

/-! ## Collecting twice -/

theorem Chain.head_eq {h : Heap} {L : List Nat} {p : Ptr} (c : Chain h p L) : p = L.head? := by
  cases L with
  | nil => exact c
  | cons a l => exact c.1

/-- Two chains over the same addresses have the same `next` fields. -/
theorem Chain.next_eq {h h1 : Heap} : ∀ {L : List Nat} {p p1 : Ptr},
    Chain h p L → Chain h1 p1 L →
    ∀ x ∈ L, ∀ o o1, h x = some o → h1 x = some o1 → o1.next = o.next := by
  intro L
  induction L with
  | nil => intro p p1 _ _ x hx; simp at hx
  | cons a l ih =>
    intro p p1 c c1 x hx o o1 ho ho1
    obtain ⟨_, oa, hoa, hc⟩ := c
    obtain ⟨_, ob, hob, hc1⟩ := c1
    rw [Option.mem_def] at hoa hob
    rcases List.mem_cons.1 hx with e | e
    · subst e
      rw [hoa] at ho
      rw [hob] at ho1
      cases ho
      cases ho1
      rw [hc.head_eq, hc1.head_eq]
    · exact ih hc hc1 x e o o1 ho ho1

/-- After a collection the state is well-formed again, on the surviving list,
and everything that survived is still reachable. -/
theorem GcPost.wellFormed {vm vm1 : VM} {L : List Nat} {keep : Nat → Bool}
    (w : WellFormed vm L) (post : GcPost vm L vm1 keep) :
    WellFormed vm1 (L.filter keep) ∧ ∀ a ∈ L.filter keep, Reach vm1 a := by
  have hroots : roots vm1 = roots vm := by
    simp only [roots, post.stack.1, post.stack.2]
  have hin : ∀ a, Reach vm a → a ∈ L.filter keep := fun a r =>
    List.mem_filter.2 ⟨w.reach_mem r, (post.keep_iff a (w.reach_mem r)).2 r⟩
  have hreach : ∀ a, Reach vm a → Reach vm1 a := by
    intro a r
    induction r with
    | root hr => exact Reachable.root (hroots ▸ hr)
    | left ra ho ht hl ih =>
      have haL := w.reach_mem ra
      obtain ⟨o0, o1, ho0, ho1, hd, _⟩ := post.kept _ haL ((post.keep_iff _ haL).2 ra)
      rw [ho] at ho0
      cases ho0
      exact Reachable.left ih ho1 (hd.1.trans ht) (hd.2.2.1.trans hl)
    | right ra ho ht hl ih =>
      have haL := w.reach_mem ra
      obtain ⟨o0, o1, ho0, ho1, hd, _⟩ := post.kept _ haL ((post.keep_iff _ haL).2 ra)
      rw [ho] at ho0
      cases ho0
      exact Reachable.right ih ho1 (hd.1.trans ht) (hd.2.2.2.trans hl)
  refine ⟨⟨post.chain, ?_, ?_, ?_⟩, ?_⟩
  · intro p hp a ha
    rw [Option.mem_def] at ha
    subst ha
    rw [hroots] at hp
    exact hin a (Reachable.root hp)
  · intro a ha o1 ho1 ht
    rw [Option.mem_def] at ho1
    have ha' := List.mem_filter.1 ha
    obtain ⟨o, o2, ho, ho2, hd, _⟩ := post.kept a ha'.1 ha'.2
    rw [ho1] at ho2
    cases ho2
    have ra : Reach vm a := (post.keep_iff a ha'.1).1 ha'.2
    constructor
    · intro b hb
      rw [Option.mem_def] at hb
      exact hin b (Reachable.left ra ho (hd.1 ▸ ht) (hd.2.2.1 ▸ hb))
    · intro b hb
      rw [Option.mem_def] at hb
      exact hin b (Reachable.right ra ho (hd.1 ▸ ht) (hd.2.2.2 ▸ hb))
  · intro a ha
    have ha' := List.mem_filter.1 ha
    obtain ⟨o, o1, _, ho1, _, hm⟩ := post.kept a ha'.1 ha'.2
    simp [isMarked, ho1, hm]
  · intro a ha
    have ha' := List.mem_filter.1 ha
    exact hreach a ((post.keep_iff a ha'.1).1 ha'.2)

/-- C4 (collect idempotence).  On a well-formed VM state, a second `gc` right
after the first one returns exactly the state the first one produced (same
all-objects list, same `numObjects`, same `maxObjects`) and reports zero
collected objects. -/
theorem gc_twice_same_state (vm : VM) (L : List Nat) (fuel : Nat)
    (w : WellFormed vm L) (hf : L.length + 1 ≤ fuel) :
    ∃ (vm1 : VM) (L1 : List Nat), gc fuel vm = some vm1 ∧
      Chain vm1.heap vm1.first_obj L1 ∧
      gc fuel vm1 = some vm1 ∧ gcReport fuel vm1 = some (0, vm1.numObjects) := by
  obtain ⟨vm1, keep, hg, post⟩ := gc_spec vm L fuel w hf
  obtain ⟨w1, hall⟩ := post.wellFormed w
  have hlen : (L.filter keep).length + 1 ≤ fuel := by
    have := List.length_filter_le keep L
    omega
  obtain ⟨vm2, keep2, hg2, post2⟩ := gc_spec vm1 (L.filter keep) fuel w1 hlen
  have hk2 : ∀ a ∈ L.filter keep, keep2 a = true := fun a ha =>
    (post2.keep_iff a ha).2 (hall a ha)
  have hf2 : (L.filter keep).filter keep2 = L.filter keep := List.filter_eq_self.2 hk2
  have hg0 : (L.filter keep).filter (fun a => !keep2 a) = [] := by
    rw [List.filter_eq_nil_iff]
    intro a ha
    simp [hk2 a ha]
  have hnum : vm2.numObjects = vm1.numObjects := by
    rw [post2.count, hg0]
    simp
  have hchain2 : Chain vm2.heap vm2.first_obj (L.filter keep) := hf2 ▸ post2.chain
  have hheap : vm2.heap = vm1.heap := by
    funext x
    by_cases hx : x ∈ L.filter keep
    · obtain ⟨o, o2, ho, ho2, hd, hm2⟩ := post2.kept x hx (hk2 x hx)
      have hm1 : o.marked = 0 := by
        have := w1.2.2.2 x hx
        simpa [isMarked, ho] using this
      have hn := Chain.next_eq post.chain hchain2 x hx o o2 ho ho2
      rw [ho, ho2]
      obtain ⟨d1, d2, d3, d4⟩ := hd
      cases o
      cases o2
      simp only at d1 d2 d3 d4 hm1 hm2 hn
      subst d1 d2 d3 d4 hm1 hm2 hn
      rfl
    · exact post2.frame x hx
  have heq : vm2 = vm1 := by
    have e1 := post2.stack.1
    have e2 := post2.stack.2
    have e3 : vm2.first_obj = vm1.first_obj := by
      rw [hchain2.head_eq, post.chain.head_eq]
    have e4 : vm2.maxObjects = vm1.maxObjects := by
      rw [post2.max, post.max, hnum]
    cases vm1
    cases vm2
    simp only at e1 e2 e3 e4 hnum hheap
    subst e1 e2 e3 e4 hnum hheap
    rfl
  refine ⟨vm1, L.filter keep, hg, post.chain, heq ▸ hg2, ?_⟩
  simp only [gcReport, hg2, heq]
  simp

theorem gc_twice_same_state_witness :
    WellFormed cycleVM [60, 50, 40, 30, 20, 10] ∧
    ∃ (vm1 : VM) (L1 : List Nat), gc 8 cycleVM = some vm1 ∧
      Chain vm1.heap vm1.first_obj L1 ∧
      gc 8 vm1 = some vm1 ∧ gcReport 8 vm1 = some (0, vm1.numObjects) :=
  ⟨by decide, gc_twice_same_state cycleVM [60, 50, 40, 30, 20, 10] 8 (by decide) (by decide)⟩

/-! ## Marks are clear between collections -/

theorem sweepLoop_succ : ∀ (fuel : Nat) (vm : VM) (l : Loc) (r : VM),
    sweepLoop fuel vm l = some r → sweepLoop (fuel + 1) vm l = some r := by
  intro fuel
  induction fuel with
  | zero => intro vm l r e; simp [sweepLoop] at e
  | succ f ih =>
    intro vm l r e
    rw [sweepLoop] at e ⊢
    cases hr : readLoc vm l with
    | none => simp [hr] at e
    | some q =>
      cases q with
      | none => simpa [hr] using e
      | some a =>
        simp only [hr] at e ⊢
        cases ho : vm.heap a with
        | none => simp [ho] at e
        | some o =>
          simp only [ho] at e ⊢
          by_cases hmk : o.marked = 0
          · rw [if_pos hmk] at e ⊢
            cases hw : writeLoc vm l o.next with
            | none => simp [hw] at e
            | some vm1 =>
              simp only [hw] at e ⊢
              exact ih _ _ _ e
          · rw [if_neg hmk] at e ⊢
            exact ih _ _ _ e

theorem sweepLoop_le {f g : Nat} (hfg : f ≤ g) {vm : VM} {l : Loc} {r : VM}
    (e : sweepLoop f vm l = some r) : sweepLoop g vm l = some r := by
  induction hfg with
  | refl => exact e
  | step _ ih => exact sweepLoop_succ _ _ _ _ ih

/-- Whatever the fuel, a `sweep` that returns on a proper list has done the
work described by `SweepPost`. -/
theorem sweep_post {vm vm1 : VM} {L : List Nat} {fuel : Nat}
    (hc : Chain vm.heap vm.first_obj L) (e : sweep fuel vm = some vm1) :
    SweepPost vm Loc.head L vm1 := by
  obtain ⟨vm2, hs, post⟩ := sweepLoop_spec L (max fuel (L.length + 1)) vm Loc.head _ rfl hc
    (fun b hb => by cases hb) (le_max_right _ _)
  have := sweepLoop_le (le_max_left fuel (L.length + 1)) e
  rw [this] at hs
  cases hs
  exact post

theorem SweepPost.leaves_clear {vm vm1 : VM} {L : List Nat} (post : SweepPost vm Loc.head L vm1) :
    MarksClear vm1 := by
  obtain ⟨p1, hp1, hch⟩ := post.chain
  cases hp1
  refine ⟨_, hch, ?_⟩
  intro a ha
  have ha' := List.mem_filter.1 ha
  obtain ⟨o, o1, _, ho1, _, hm⟩ := post.kept a ha'.1 ha'.2
  simp [isMarked, ho1, hm]

theorem gc_clear {vm vm1 : VM} {L : List Nat} {fuel : Nat}
    (hc : Chain vm.heap vm.first_obj L) (e : gc fuel vm = some vm1) : MarksClear vm1 := by
  rw [gc] at e
  cases hm : markAll fuel vm with
  | none => simp [hm] at e
  | some vmM =>
    simp only [hm] at e
    cases hs : sweep fuel vmM with
    | none => simp [hs] at e
    | some vm2 =>
      simp only [hs, Option.some.injEq] at e
      subst e
      rw [markAll] at hm
      cases hr : markRoots fuel (roots vm) vm.heap with
      | none => simp [hr] at hm
      | some hp =>
        simp only [hr, Option.some.injEq] at hm
        subst hm
        have hc1 : Chain hp vm.first_obj L :=
          Chain.markStep (markRoots_spec fuel _ _ _ hr).step hc
        exact (sweep_post hc1 hs).leaves_clear

theorem Chain.of_next {h h1 : Heap} : ∀ {L : List Nat} {p : Ptr},
    (∀ x ∈ L, ∀ o, h x = some o → ∃ o1, h1 x = some o1 ∧ o1.next = o.next) →
    Chain h p L → Chain h1 p L := by
  intro L
  induction L with
  | nil => intro p _ c; exact c
  | cons a l ih =>
    intro p hn c
    obtain ⟨hp, o, ho, hc⟩ := c
    obtain ⟨o1, ho1, e⟩ := hn a (List.mem_cons_self _ _) o (Option.mem_def.1 ho)
    exact ⟨hp, o1, Option.mem_def.2 ho1,
      e ▸ ih (fun x hx => hn x (List.mem_cons_of_mem _ hx)) hc⟩

/-- Overwriting a payload field of an allocated object keeps the list and its marks. -/
theorem ClearList.set_field {h : Heap} {p : Ptr} {a : Nat} {o o1 : object_t}
    (c : ClearList h p) (ho : h a = some o) (hn : o1.next = o.next)
    (hm : o1.marked = o.marked) : ClearList (upd h a (some o1)) p := by
  obtain ⟨L, hc, hclear⟩ := c
  refine ⟨L, Chain.of_next ?_ hc, ?_⟩
  · intro x _ ox hox
    by_cases hx : x = a
    · subst hx
      rw [ho] at hox
      cases hox
      exact ⟨o1, upd_same _ _ _, hn⟩
    · exact ⟨ox, (upd_other _ _ _ _ hx).trans hox, rfl⟩
  · intro x hx
    by_cases hxa : x = a
    · subst hxa
      have := hclear x hx
      simp only [isMarked, ho] at this
      simp only [isMarked, upd_same, hm]
      exact this
    · rw [isMarked_upd_other _ _ _ _ hxa]
      exact hclear x hx

theorem newObject_clear {vm vm1 : VM} {fuel addr a : Nat} {typ : obj_type}
    (c : MarksClear vm) (e : newObject fuel vm typ addr = some (a, vm1)) :
    MarksClear vm1 ∧ ∃ o, vm1.heap a = some o := by
  rw [newObject] at e
  have key : ∀ vm0 : VM, MarksClear vm0 → vm0.heap addr = none →
      MarksClear { vm0 with
        heap := upd vm0.heap addr (some ⟨typ, 0, vm0.first_obj, 0, none, none⟩)
        first_obj := some addr
        numObjects := vm0.numObjects + 1 } := by
    intro vm0 c0 hfree
    obtain ⟨L, hc, hclear⟩ := c0
    have hnot : addr ∉ L := by
      intro hmem
      obtain ⟨o, ho⟩ := hc.alloc addr hmem
      rw [hfree] at ho
      cases ho
    have hframe : ∀ x ∈ L,
        upd vm0.heap addr (some ⟨typ, 0, vm0.first_obj, 0, none, none⟩) x = vm0.heap x :=
      fun x hx => upd_other _ _ _ _ (fun e => hnot (e ▸ hx))
    refine ⟨addr :: L, ⟨rfl, _, Option.mem_def.2 (upd_same _ _ _), Chain.frame hframe hc⟩, ?_⟩
    intro x hx
    rcases List.mem_cons.1 hx with e | e
    · subst e
      simp [isMarked, upd_same]
    · rw [isMarked_congr (hframe x e)]
      exact hclear x e
  have fin : ∀ vm0 : VM, MarksClear vm0 →
      (match vm0.heap addr with
        | some _ => none
        | none => some (addr, { vm0 with
            heap := upd vm0.heap addr (some ⟨typ, 0, vm0.first_obj, 0, none, none⟩)
            first_obj := some addr
            numObjects := vm0.numObjects + 1 })) = some (a, vm1) →
      MarksClear vm1 ∧ ∃ o, vm1.heap a = some o := by
    intro vm0 c0 e0
    cases hfree : vm0.heap addr with
    | some o => simp [hfree] at e0
    | none =>
      simp only [hfree, Option.some.injEq, Prod.mk.injEq] at e0
      obtain ⟨e1, e2⟩ := e0
      subst e1 e2
      exact ⟨key vm0 c0 hfree, _, upd_same _ _ _⟩
  by_cases hfull : vm.numObjects = vm.maxObjects
  · rw [if_pos hfull] at e
    cases hg : gc fuel vm with
    | none => simp [hg] at e
    | some vmG =>
      simp only [hg] at e
      obtain ⟨L, hc, _⟩ := c
      exact fin vmG (gc_clear hc hg) e
  · rw [if_neg hfull] at e
    exact fin vm c e

theorem push_clear {vm vm1 : VM} {p : Ptr} (c : MarksClear vm) (e : push vm p = some vm1) :
    MarksClear vm1 := by
  rw [push] at e
  by_cases hlt : vm.stack_size < STACK_MAX_SIZE
  · rw [if_pos hlt] at e
    cases e
    exact c
  · rw [if_neg hlt] at e
    cases e

theorem pop_clear {vm vm1 : VM} {p : Ptr} (c : MarksClear vm) (e : pop vm = some (p, vm1)) :
    MarksClear vm1 ∧ vm1.heap = vm.heap := by
  rw [pop] at e
  by_cases hlt : vm.stack_size > 0
  · rw [if_pos hlt] at e
    cases e
    exact ⟨c, rfl⟩
  · rw [if_neg hlt] at e
    cases e

theorem pushInt_clear {vm vm1 : VM} {fuel : Nat} {val : Int} {addr : Nat}
    (c : MarksClear vm) (e : pushInt fuel vm val addr = some vm1) : MarksClear vm1 := by
  rw [pushInt] at e
  cases hn : newObject fuel vm obj_type.INT_TYPE addr with
  | none => simp [hn] at e
  | some r =>
    obtain ⟨a, vmN⟩ := r
    simp only [hn] at e
    obtain ⟨cN, _⟩ := newObject_clear c hn
    cases ho : vmN.heap a with
    | none => simp [ho] at e
    | some o =>
      simp only [ho] at e
      refine push_clear ?_ e
      exact ClearList.set_field cN ho rfl rfl

theorem pushPair_clear {vm vm1 : VM} {fuel addr a : Nat}
    (c : MarksClear vm) (e : pushPair fuel vm addr = some (a, vm1)) : MarksClear vm1 := by
  rw [pushPair] at e
  cases hn : newObject fuel vm obj_type.PAIR_TYPE addr with
  | none => simp [hn] at e
  | some r =>
    obtain ⟨a0, vmN⟩ := r
    simp only [hn] at e
    obtain ⟨cN, _⟩ := newObject_clear c hn
    cases hp1 : pop vmN with
    | none => simp [hp1] at e
    | some r1 =>
      obtain ⟨l, vm2⟩ := r1
      simp only [hp1] at e
      obtain ⟨c2, _⟩ := pop_clear cN hp1
      cases ho : vm2.heap a0 with
      | none => simp [ho] at e
      | some o =>
        simp only [ho] at e
        have c3 : MarksClear { vm2 with heap := upd vm2.heap a0 (some { o with left := l }) } :=
          ClearList.set_field c2 ho rfl rfl
        cases hp2 : pop { vm2 with heap := upd vm2.heap a0 (some { o with left := l }) } with
        | none => simp [hp2] at e
        | some r2 =>
          obtain ⟨r, vm4⟩ := r2
          simp only [hp2] at e
          obtain ⟨c4, _⟩ := pop_clear c3 hp2
          cases ho1 : vm4.heap a0 with
          | none => simp [ho1] at e
          | some o1 =>
            simp only [ho1] at e
            have c5 : MarksClear
                { vm4 with heap := upd vm4.heap a0 (some { o1 with right := r }) } :=
              ClearList.set_field c4 ho1 rfl rfl
            cases hp3 : push { vm4 with heap := upd vm4.heap a0 (some { o1 with right := r }) }
                (some a0) with
            | none => simp [hp3] at e
            | some vm6 =>
              simp only [hp3, Option.some.injEq, Prod.mk.injEq] at e
              obtain ⟨_, e2⟩ := e
              subst e2
              exact push_clear c5 hp3

theorem Reached.stays_clear {vm : VM} (r : Reached vm) : MarksClear vm := by
  induction r with
  | init => exact ⟨[], rfl, fun a ha => by simp at ha⟩
  | pushInt _ e ih => exact pushInt_clear ih e
  | pushPair _ e ih => exact pushPair_clear ih e
  | push _ e ih => exact push_clear ih e
  | pop _ e ih => exact (pop_clear ih e).1
  | gc _ e ih =>
    obtain ⟨L, hc, _⟩ := ih
    exact gc_clear hc e

theorem MarksClear.listUnmarked {vm : VM} (c : MarksClear vm) : ListUnmarked vm := by
  obtain ⟨L, hc, hclear⟩ := c
  refine ⟨L, hc, fun a ha => ?_⟩
  obtain ⟨o, ho⟩ := hc.alloc a ha
  have := hclear a ha
  exact ⟨o, ho, by simpa [isMarked, ho] using this⟩

/-- C5 (marks are cleared by sweep).  For a VM state whose all-objects list is
a proper list `L`, `sweep` returns, and after `sweep` alone, and hence after
`gc`, every object remaining in the all-objects list has `marked == 0`.
Hence "all marks clear" holds in every state reachable from `newVM` through
`pushInt`, `pushPair`, `push`, `pop` and `gc`. -/
theorem sweep_clears_marks (vm : VM) (L : List Nat) (hc : Chain vm.heap vm.first_obj L) :
    (∃ vm1, sweep (L.length + 1) vm = some vm1) ∧
    (∀ fuel vm1, sweep fuel vm = some vm1 → ListUnmarked vm1) ∧
    (∀ fuel vm1, gc fuel vm = some vm1 → ListUnmarked vm1) ∧
    (∀ vm0, Reached vm0 → ListUnmarked vm0) := by
  refine ⟨?_, ?_, ?_, ?_⟩
  · obtain ⟨vm1, hs, _⟩ := sweepLoop_spec L (L.length + 1) vm Loc.head _ rfl hc
      (fun b hb => by cases hb) (le_refl _)
    exact ⟨vm1, hs⟩
  · intro fuel vm1 e
    exact (sweep_post hc e).leaves_clear.listUnmarked
  · intro fuel vm1 e
    exact (gc_clear hc e).listUnmarked
  · intro vm0 r
    exact r.stays_clear.listUnmarked

theorem sweep_clears_marks_witness :
    Chain markedVM.heap markedVM.first_obj [60, 50, 40, 30, 20, 10] ∧
    ((∃ vm1, sweep ([60, 50, 40, 30, 20, 10].length + 1) markedVM = some vm1) ∧
      (∀ fuel vm1, sweep fuel markedVM = some vm1 → ListUnmarked vm1) ∧
      (∀ fuel vm1, gc fuel markedVM = some vm1 → ListUnmarked vm1) ∧
      (∀ vm0, Reached vm0 → ListUnmarked vm0)) :=
  ⟨by decide, sweep_clears_marks markedVM [60, 50, 40, 30, 20, 10] (by decide)⟩

/-! ## Client scripts -/

/-- The script of `GC_test4` ends in the state `cycleVM`, on every address that
was ever allocated and on all bookkeeping fields. -/
theorem test4Script_state :
    (runOps 7 test4Script newVM).map (fun (vm : VM) =>
      decide ((∀ x ∈ ([10, 20, 30, 40, 50, 60] : List Nat), vm.heap x = cycleVM.heap x) ∧
        roots vm = roots cycleVM ∧ vm.first_obj = cycleVM.first_obj ∧
        vm.numObjects = cycleVM.numObjects ∧ vm.maxObjects = cycleVM.maxObjects)) =
      some true := by
  decide

/-- C11 (pair edge order), failing input.  After `pushInt 1`, `pushInt 2` the
top of the root set is the scalar 2 (at 20) and the scalar 1 (at 10) lies
directly below it.  `pushPair` returns the new pair (at 30) with the reference
popped first, the former top, as its LEFT edge and the reference popped
second as its RIGHT edge: the opposite of the claimed order. -/
theorem pushPair_first_popped_is_left :
    (runOps 7 [Op.pushInt 1 10, Op.pushInt 2 20] newVM).bind (fun (vm : VM) =>
      (pushPair 7 vm 30).map (fun (r : Nat × VM) =>
        decide (vm.stack_size = 2 ∧ vm.STACK 1 = some 20 ∧ vm.STACK 0 = some 10 ∧
          valAt vm 20 = some 2 ∧ valAt vm 10 = some 1 ∧ r.1 = 30 ∧
          edgesAt r.2 30 = some (some 20, some 10) ∧ roots r.2 = [some 30]))) =
      some true := by
  decide

/-- C16 (cycle scenario), failing input.  After the script of `GC_test4` the
collection leaves `numObjects == 4`, but the objects it releases are the
scalars 1 and 3 (at 10 and 40); the survivors are the scalars 2 and 4 (at 20
and 50) and the two pairs. -/
theorem test4_collects_one_and_three :
    ((runOps 7 test4Script newVM).bind (gc 7)).map (fun (vm : VM) =>
      (vm.numObjects, [valAt vm 10, valAt vm 20, valAt vm 40, valAt vm 50],
        decide (Chain vm.heap vm.first_obj [60, 50, 30, 20]))) =
      some (4, [none, some 2, none, some 4], true) := by
  decide

/-! ## The root stack -/

/-- C13 (push then pop).  In a VM with `stack_size < 256`, `push` of any
reference `obj` followed by `pop` returns `obj` and leaves the root set, the
`stack_size`, the object memory with the all-objects list, `numObjects` and
`maxObjects` as they were before the `push`. -/
theorem push_pop_roundtrip (vm : VM) (obj : Ptr) (hlt : vm.stack_size < STACK_MAX_SIZE) :
    ∃ vm1 vm2, push vm obj = some vm1 ∧ pop vm1 = some (obj, vm2) ∧
      roots vm2 = roots vm ∧ vm2.stack_size = vm.stack_size ∧
      vm2.first_obj = vm.first_obj ∧ vm2.heap = vm.heap ∧
      vm2.numObjects = vm.numObjects ∧ vm2.maxObjects = vm.maxObjects := by
  refine ⟨{ vm with STACK := fun i => if i = vm.stack_size then obj else vm.STACK i
                    stack_size := vm.stack_size + 1 },
    { vm with STACK := fun i => if i = vm.stack_size then obj else vm.STACK i }, ?_, ?_, ?_,
    rfl, rfl, rfl, rfl, rfl⟩
  · simp only [push, if_pos hlt]
  · simp [pop]
  · simp only [roots]
    refine List.map_congr_left ?_
    intro i hi
    have : i ≠ vm.stack_size := by
      have := List.mem_range.1 hi
      omega
    simp [this]

theorem push_pop_roundtrip_witness :
    cycleVM.stack_size < STACK_MAX_SIZE ∧
    ∃ vm1 vm2, push cycleVM (some 10) = some vm1 ∧ pop vm1 = some (some 10, vm2) ∧
      roots vm2 = roots cycleVM ∧ vm2.stack_size = cycleVM.stack_size ∧
      vm2.first_obj = cycleVM.first_obj ∧ vm2.heap = cycleVM.heap ∧
      vm2.numObjects = cycleVM.numObjects ∧ vm2.maxObjects = cycleVM.maxObjects :=
  ⟨by decide, push_pop_roundtrip cycleVM (some 10) (by decide)⟩

/-! ## The collection threshold -/

/-- C14 (threshold recomputation), within the range of `int`.  Whenever `gc`
returns and twice the `numObjects` it leaves is a value of `int`, so that the
multiplication `numObjects * 2` of the source does not overflow,
`maxObjects` is a value of `int`, it is twice that `numObjects` when the
count is not zero, and it is `INIT_OBJ_NUM_MAX` (8) when the count is zero. -/
theorem gc_threshold (vm : VM) (fuel : Nat) (vm1 : VM) (h : gc fuel vm = some vm1)
    (hr : isInt (vm1.numObjects * 2)) :
    isInt vm1.maxObjects ∧
    (vm1.numObjects ≠ 0 → vm1.maxObjects = 2 * vm1.numObjects) ∧
    (vm1.numObjects = 0 → vm1.maxObjects = INIT_OBJ_NUM_MAX) := by
  rw [gc] at h
  cases hm : markAll fuel vm with
  | none => simp [hm] at h
  | some vmM =>
    simp only [hm] at h
    cases hs : sweep fuel vmM with
    | none => simp [hs] at h
    | some vm2 =>
      simp only [hs, Option.some.injEq] at h
      subst h
      have hr2 : isInt (vm2.numObjects * 2) := hr
      refine ⟨?_, ?_, ?_⟩
      · show isInt (if vm2.numObjects = 0 then INIT_OBJ_NUM_MAX else vm2.numObjects * 2)
        by_cases he : vm2.numObjects = 0
        · rw [if_pos he]
          decide
        · rw [if_neg he]
          exact hr2
      · intro hne
        show (if vm2.numObjects = 0 then INIT_OBJ_NUM_MAX else vm2.numObjects * 2) = _
        rw [if_neg hne]
        ring
      · intro he
        show (if vm2.numObjects = 0 then INIT_OBJ_NUM_MAX else vm2.numObjects * 2) = _
        rw [if_pos he]

/-- On `cycleVM` the count that `gc` leaves is far inside the range of `int`. -/
theorem cycleVM_gc_count :
    (gc 7 cycleVM).map (fun (vm : VM) => decide (vm.numObjects = 4 ∧ isInt (vm.numObjects * 2))) =
      some true := by
  decide

theorem gc_threshold_witness :
    (gc 1 newVM = some newVM ∧ isInt (newVM.numObjects * 2) ∧
      (isInt newVM.maxObjects ∧
        (newVM.numObjects ≠ 0 → newVM.maxObjects = 2 * newVM.numObjects) ∧
        (newVM.numObjects = 0 → newVM.maxObjects = INIT_OBJ_NUM_MAX))) ∧
    ∃ vm1, gc 7 cycleVM = some vm1 ∧ vm1.numObjects = 4 ∧ isInt (vm1.numObjects * 2) ∧
      (isInt vm1.maxObjects ∧
        (vm1.numObjects ≠ 0 → vm1.maxObjects = 2 * vm1.numObjects) ∧
        (vm1.numObjects = 0 → vm1.maxObjects = INIT_OBJ_NUM_MAX)) := by
  refine ⟨⟨rfl, by decide, gc_threshold newVM 1 newVM rfl (by decide)⟩, ?_⟩
  have hd := cycleVM_gc_count
  cases hg : gc 7 cycleVM with
  | none =>
    rw [hg] at hd
    cases hd
  | some vm1 =>
    rw [hg] at hd
    have hk := of_decide_eq_true (Option.some.inj hd)
    exact ⟨vm1, rfl, hk.1, hk.2, gc_threshold cycleVM 7 vm1 hg hk.2⟩

/-- C14 fails beyond the range of `int`.  The counters of `hugeCountVM` are
values of `int`.  The collection returns on it and leaves
`numObjects == 2^30`, which is not zero, and twice that
count is not a value of the type `int`: the multiplication `numObjects * 2`
of the source overflows, the mathematical product that `gc` records for
`maxObjects` is not a value the C field can hold, and no value of the type
`int` equals `2 * numObjects`. -/
theorem gc_threshold_overflows :
    isInt hugeCountVM.numObjects ∧ isInt hugeCountVM.maxObjects ∧
    (gc 7 hugeCountVM).map (fun (vm : VM) =>
      decide (vm.numObjects = 2 ^ 30 ∧ vm.numObjects ≠ 0 ∧ ¬ isInt (vm.numObjects * 2) ∧
        ¬ isInt vm.maxObjects)) = some true ∧
    ∀ m : Int, isInt m → m ≠ 2 * 2 ^ 30 := by
  refine ⟨by decide, by decide, by decide, ?_⟩
  intro m hm e
  have h2 := hm.2
  rw [e] at h2
  exact absurd h2 (by decide)

/-! ## Bookkeeping invariants of reachable states -/

theorem filter_length_add (p : Nat → Bool) : ∀ L : List Nat,
    (L.filter p).length + (L.filter (fun a => !p a)).length = L.length := by
  intro L
  induction L with
  | nil => rfl
  | cons x t ih =>
    cases hx : p x with
    | true => simp [List.filter_cons, hx]; omega
    | false => simp [List.filter_cons, hx]; omega

/-- The three steps of `gc`, read off a call that returned. -/
theorem gc_inv {vm vm1 : VM} {fuel : Nat} (e : gc fuel vm = some vm1) :
    ∃ hp vm2, markRoots fuel (roots vm) vm.heap = some hp ∧ MarkStep vm.heap hp ∧
      sweep fuel { vm with heap := hp } = some vm2 ∧
      vm1 = { vm2 with
        maxObjects := if vm2.numObjects = 0 then INIT_OBJ_NUM_MAX else vm2.numObjects * 2 } := by
  rw [gc] at e
  cases hm : markAll fuel vm with
  | none => simp [hm] at e
  | some vmM =>
    simp only [hm] at e
    cases hs : sweep fuel vmM with
    | none => simp [hs] at e
    | some vm2 =>
      simp only [hs, Option.some.injEq] at e
      rw [markAll] at hm
      cases hr : markRoots fuel (roots vm) vm.heap with
      | none => simp [hr] at hm
      | some hp =>
        simp only [hr, Option.some.injEq] at hm
        subst hm
        exact ⟨hp, vm2, rfl, (markRoots_spec fuel _ _ _ hr).step, hs, e.symm⟩

/-- A `sweep` that returns on a proper list with a matching count leaves the
marked nodes, unmarked again, and a matching count. -/
theorem sweep_keeps_count {vm vm1 : VM} {L : List Nat} {fuel : Nat}
    (hc : Chain vm.heap vm.first_obj L) (hn : vm.numObjects = (L.length : Int))
    (hs : sweep fuel vm = some vm1) :
    Chain vm1.heap vm1.first_obj (L.filter (isMarked vm.heap)) ∧
    (∀ a ∈ L.filter (isMarked vm.heap), isMarked vm1.heap a = false) ∧
    vm1.numObjects = ((L.filter (isMarked vm.heap)).length : Int) ∧
    vm1.stack_size = vm.stack_size ∧ vm1.maxObjects = vm.maxObjects ∧
    vm1.STACK = vm.STACK := by
  have post := sweep_post hc hs
  obtain ⟨p1, hp1, hch⟩ := post.chain
  cases hp1
  refine ⟨hch, ?_, ?_, post.stack.2.1, post.stack.2.2, post.stack.1⟩
  · intro a ha
    have ha1 := List.mem_filter.1 ha
    obtain ⟨o, o1, _, ho1, _, hm⟩ := post.kept a ha1.1 ha1.2
    simp [isMarked, ho1, hm]
  · rw [post.count, hn]
    have := filter_length_add (isMarked vm.heap) L
    omega

theorem gc_sound {vm vm1 : VM} {L : List Nat} {fuel : Nat} (s : Sound vm L)
    (e : gc fuel vm = some vm1) :
    ∃ L1, Sound vm1 L1 ∧ vm1.numObjects < vm1.maxObjects ∧ vm1.stack_size = vm.stack_size ∧
      vm1.STACK = vm.STACK := by
  obtain ⟨hc, _, hn, _, hst⟩ := s
  obtain ⟨hp, vm2, _, hstep, hs, rfl⟩ := gc_inv e
  have hc1 : Chain hp vm.first_obj L := Chain.markStep hstep hc
  obtain ⟨k1, k2, k3, k4, _, k6⟩ := @sweep_keeps_count { vm with heap := hp } vm2 L fuel hc1 hn hs
  have hlt : vm2.numObjects <
      (if vm2.numObjects = 0 then INIT_OBJ_NUM_MAX else vm2.numObjects * 2) := by
    by_cases h0 : vm2.numObjects = 0
    · rw [if_pos h0, h0]
      decide
    · rw [if_neg h0]
      have : (0 : Int) ≤ vm2.numObjects := by rw [k3]; exact Int.natCast_nonneg _
      omega
  refine ⟨L.filter (isMarked hp), ⟨k1, k2, k3, le_of_lt hlt, ?_⟩, hlt, k4, k6⟩
  show vm2.stack_size ≤ STACK_MAX_SIZE
  rw [k4]
  exact hst

theorem sweep_sound {vm vm1 : VM} {L : List Nat} {fuel : Nat} (s : Sound vm L)
    (e : sweep fuel vm = some vm1) : Sound vm1 [] := by
  obtain ⟨hc, hclear, hn, hle, hst⟩ := s
  obtain ⟨k1, k2, k3, k4, k5, _⟩ := sweep_keeps_count hc hn e
  have hnil : L.filter (isMarked vm.heap) = [] := by
    rw [List.filter_eq_nil_iff]
    intro a ha
    simp [hclear a ha]
  rw [hnil] at k1 k2 k3
  refine ⟨k1, k2, k3, ?_, k4 ▸ hst⟩
  rw [k3, k5]
  have : (0 : Int) ≤ vm.numObjects := by rw [hn]; exact Int.natCast_nonneg _
  simp only [List.length_nil, Nat.cast_zero]
  omega

/-- Overwriting a payload field of an allocated object keeps the bookkeeping. -/
theorem Sound.set_payload {vm : VM} {L : List Nat} {a : Nat} {o o1 : object_t}
    (s : Sound vm L) (ho : vm.heap a = some o) (hn : o1.next = o.next)
    (hm : o1.marked = o.marked) :
    Sound { vm with heap := upd vm.heap a (some o1) } L := by
  obtain ⟨hc, hclear, hcount, hle, hst⟩ := s
  refine ⟨Chain.of_next ?_ hc, ?_, hcount, hle, hst⟩
  · intro x _ ox hox
    by_cases hx : x = a
    · subst hx
      rw [ho] at hox
      cases hox
      exact ⟨o1, upd_same _ _ _, hn⟩
    · exact ⟨ox, (upd_other _ _ _ _ hx).trans hox, rfl⟩
  · intro x hx
    by_cases hxa : x = a
    · subst hxa
      have := hclear x hx
      simp only [isMarked, ho] at this
      show isMarked (upd vm.heap x (some o1)) x = false
      simp only [isMarked, upd_same, hm]
      exact this
    · show isMarked (upd vm.heap a (some o1)) x = false
      rw [isMarked_upd_other _ _ _ _ hxa]
      exact hclear x hx

/-- The parts of `newObject`, read off a call that returned. -/
theorem newObject_inv {vm vmN : VM} {fuel addr a : Nat} {typ : obj_type}
    (e : newObject fuel vm typ addr = some (a, vmN)) :
    ∃ vm1, (if vm.numObjects = vm.maxObjects then gc fuel vm else some vm) = some vm1 ∧
      vm1.heap addr = none ∧ a = addr ∧
      vmN = { vm1 with
        heap := upd vm1.heap addr (some ⟨typ, 0, vm1.first_obj, 0, none, none⟩)
        first_obj := some addr
        numObjects := vm1.numObjects + 1 } := by
  rw [newObject] at e
  cases h1 : (if vm.numObjects = vm.maxObjects then gc fuel vm else some vm) with
  | none => simp [h1] at e
  | some vm1 =>
    simp only [h1] at e
    cases hfree : vm1.heap addr with
    | some o => simp [hfree] at e
    | none =>
      simp only [hfree, Option.some.injEq, Prod.mk.injEq] at e
      exact ⟨vm1, rfl, hfree, e.1.symm, e.2.symm⟩

/-- Prepending a fresh object keeps the bookkeeping when there is room below
the threshold. -/
theorem Sound.cons_fresh {vm : VM} {L : List Nat} {addr : Nat} {typ : obj_type}
    (s : Sound vm L) (hfree : vm.heap addr = none) (hroom : vm.numObjects < vm.maxObjects) :
    Sound { vm with
      heap := upd vm.heap addr (some ⟨typ, 0, vm.first_obj, 0, none, none⟩)
      first_obj := some addr
      numObjects := vm.numObjects + 1 } (addr :: L) := by
  obtain ⟨hc, hclear, hcount, _, hst⟩ := s
  have hnot : addr ∉ L := by
    intro hmem
    obtain ⟨o, ho⟩ := hc.alloc addr hmem
    rw [hfree] at ho
    cases ho
  have hframe : ∀ x ∈ L,
      upd vm.heap addr (some ⟨typ, 0, vm.first_obj, 0, none, none⟩) x = vm.heap x :=
    fun x hx => upd_other _ _ _ _ (fun e => hnot (e ▸ hx))
  refine ⟨⟨rfl, _, Option.mem_def.2 (upd_same _ _ _), Chain.frame hframe hc⟩, ?_, ?_, ?_, hst⟩
  · intro x hx
    rcases List.mem_cons.1 hx with e | e
    · subst e
      simp [isMarked, upd_same]
    · show isMarked (upd vm.heap addr _) x = false
      rw [isMarked_congr (hframe x e)]
      exact hclear x e
  · show vm.numObjects + 1 = ((addr :: L).length : Int)
    rw [hcount]
    simp
  · show vm.numObjects + 1 ≤ vm.maxObjects
    omega

theorem newObject_sound {vm vmN : VM} {L : List Nat} {fuel addr a : Nat} {typ : obj_type}
    (s : Sound vm L) (e : newObject fuel vm typ addr = some (a, vmN)) :
    ∃ L1, Sound vmN (a :: L1) ∧ vmN.stack_size = vm.stack_size ∧ vmN.STACK = vm.STACK := by
  obtain ⟨vm1, h1, hfree, ha, rfl⟩ := newObject_inv e
  subst ha
  by_cases hfull : vm.numObjects = vm.maxObjects
  · rw [if_pos hfull] at h1
    obtain ⟨L1, s1, hlt, hsz, hstk⟩ := gc_sound s h1
    exact ⟨L1, s1.cons_fresh hfree hlt, hsz, hstk⟩
  · rw [if_neg hfull] at h1
    cases h1
    have hlt : vm.numObjects < vm.maxObjects := lt_of_le_of_ne s.2.2.2.1 hfull
    exact ⟨L, s.cons_fresh hfree hlt, rfl, rfl⟩

theorem push_sound {vm vm1 : VM} {L : List Nat} {p : Ptr} (s : Sound vm L)
    (e : push vm p = some vm1) : Sound vm1 L := by
  rw [push] at e
  by_cases hlt : vm.stack_size < STACK_MAX_SIZE
  · rw [if_pos hlt] at e
    cases e
    exact ⟨s.1, s.2.1, s.2.2.1, s.2.2.2.1, hlt⟩
  · rw [if_neg hlt] at e
    cases e

theorem pop_sound {vm vm1 : VM} {L : List Nat} {p : Ptr} (s : Sound vm L)
    (e : pop vm = some (p, vm1)) : Sound vm1 L := by
  rw [pop] at e
  by_cases hlt : vm.stack_size > 0
  · rw [if_pos hlt] at e
    cases e
    exact ⟨s.1, s.2.1, s.2.2.1, s.2.2.2.1, le_trans (Nat.sub_le _ _) s.2.2.2.2⟩
  · rw [if_neg hlt] at e
    cases e

theorem pushInt_sound {vm vm1 : VM} {L : List Nat} {fuel : Nat} {val : Int} {addr : Nat}
    (s : Sound vm L) (e : pushInt fuel vm val addr = some vm1) : ∃ L1, Sound vm1 L1 := by
  rw [pushInt] at e
  cases hn : newObject fuel vm obj_type.INT_TYPE addr with
  | none => simp [hn] at e
  | some r =>
    obtain ⟨a, vmN⟩ := r
    simp only [hn] at e
    obtain ⟨L1, sN, _, _⟩ := newObject_sound s hn
    cases ho : vmN.heap a with
    | none => simp [ho] at e
    | some o =>
      simp only [ho] at e
      have sV : Sound { vmN with heap := upd vmN.heap a (some { o with val := val }) }
          (a :: L1) := sN.set_payload ho rfl rfl
      exact ⟨_, push_sound sV e⟩

theorem pushPair_sound {vm vm1 : VM} {L : List Nat} {fuel addr a : Nat}
    (s : Sound vm L) (e : pushPair fuel vm addr = some (a, vm1)) : ∃ L1, Sound vm1 L1 := by
  rw [pushPair] at e
  cases hn : newObject fuel vm obj_type.PAIR_TYPE addr with
  | none => simp [hn] at e
  | some r =>
    obtain ⟨a0, vmN⟩ := r
    simp only [hn] at e
    obtain ⟨L1, sN, _, _⟩ := newObject_sound s hn
    cases hp1 : pop vmN with
    | none => simp [hp1] at e
    | some r1 =>
      obtain ⟨l, vm2⟩ := r1
      simp only [hp1] at e
      have s2 := pop_sound sN hp1
      cases ho : vm2.heap a0 with
      | none => simp [ho] at e
      | some o =>
        simp only [ho] at e
        have s3 : Sound { vm2 with heap := upd vm2.heap a0 (some { o with left := l }) }
            (a0 :: L1) := s2.set_payload ho rfl rfl
        cases hp2 : pop { vm2 with heap := upd vm2.heap a0 (some { o with left := l }) } with
        | none => simp [hp2] at e
        | some r2 =>
          obtain ⟨r, vm4⟩ := r2
          simp only [hp2] at e
          have s4 := pop_sound s3 hp2
          cases ho1 : vm4.heap a0 with
          | none => simp [ho1] at e
          | some o1 =>
            simp only [ho1] at e
            have s5 : Sound { vm4 with heap := upd vm4.heap a0 (some { o1 with right := r }) }
                (a0 :: L1) := s4.set_payload ho1 rfl rfl
            cases hp3 : push { vm4 with heap := upd vm4.heap a0 (some { o1 with right := r }) }
                (some a0) with
            | none => simp [hp3] at e
            | some vm6 =>
              simp only [hp3, Option.some.injEq, Prod.mk.injEq] at e
              obtain ⟨_, e2⟩ := e
              subst e2
              exact ⟨_, push_sound s5 hp3⟩

theorem setRight_sound {vm vm1 : VM} {L : List Nat} {a : Nat} {p : Ptr}
    (s : Sound vm L) (e : setRight vm a p = some vm1) : Sound vm1 L := by
  rw [setRight] at e
  cases ho : vm.heap a with
  | none => simp [ho] at e
  | some o =>
    simp only [ho, Option.some.injEq] at e
    subst e
    exact s.set_payload ho rfl rfl

theorem step_sound {vm vm1 : VM} {L : List Nat} {fuel : Nat} {op : Op}
    (s : Sound vm L) (e : step fuel vm op = some vm1) : ∃ L1, Sound vm1 L1 := by
  cases op with
  | pushInt val addr => exact pushInt_sound s e
  | pushPair addr =>
    simp only [step] at e
    cases hp : pushPair fuel vm addr with
    | none => simp [hp] at e
    | some r =>
      obtain ⟨a, vmP⟩ := r
      simp only [hp, Option.map_some', Option.some.injEq] at e
      subst e
      exact pushPair_sound s hp
  | push p => exact ⟨L, push_sound s e⟩
  | pop =>
    simp only [step] at e
    cases hp : pop vm with
    | none => simp [hp] at e
    | some r =>
      obtain ⟨p, vmP⟩ := r
      simp only [hp, Option.map_some', Option.some.injEq] at e
      subst e
      exact ⟨L, pop_sound s hp⟩
  | sweep => exact ⟨[], sweep_sound s e⟩
  | gc =>
    obtain ⟨L1, s1, _⟩ := gc_sound s e
    exact ⟨L1, s1⟩
  | setRight a p => exact ⟨L, setRight_sound s e⟩

theorem newVM_sound : Sound newVM [] :=
  ⟨rfl, fun a ha => by simp at ha, rfl, by decide, by decide⟩

/-- Every reachable state satisfies the bookkeeping invariant. -/
theorem Run.sound {vm : VM} (r : Run vm) : ∃ L, Sound vm L := by
  induction r with
  | init => exact ⟨[], newVM_sound⟩
  | next _ e ih =>
    obtain ⟨L, s⟩ := ih
    exact step_sound s e

/-- The states of `Reached` are reachable by client scripts. -/
theorem Reached.toRun {vm : VM} (r : Reached vm) : Run vm := by
  induction r with
  | init => exact Run.init
  | @pushInt vm vm1 fuel val addr _ e ih =>
    exact @Run.next vm vm1 fuel (Op.pushInt val addr) ih e
  | @pushPair vm vm1 fuel addr a _ e ih =>
    exact @Run.next vm vm1 fuel (Op.pushPair addr) ih (by simp [step, e])
  | @push vm vm1 p _ e ih => exact @Run.next vm vm1 0 (Op.push p) ih e
  | @pop vm vm1 p _ e ih => exact @Run.next vm vm1 0 Op.pop ih (by simp [step, e])
  | @gc vm vm1 fuel _ e ih => exact @Run.next vm vm1 fuel Op.gc ih e

/-- A script that runs to completion from a reachable state ends in a
reachable state. -/
theorem runOps_run {fuel : Nat} : ∀ (ops : List Op) (vm vm1 : VM),
    Run vm → runOps fuel ops vm = some vm1 → Run vm1 := by
  intro ops
  induction ops with
  | nil =>
    intro vm vm1 r e
    simp only [runOps, Option.some.injEq] at e
    exact e ▸ r
  | cons op ops ih =>
    intro vm vm1 r e
    rw [runOps] at e
    cases hs : step fuel vm op with
    | none => simp [hs] at e
    | some vm2 =>
      simp only [hs] at e
      exact ih vm2 vm1 (Run.next r hs) e

/-- C18 (live count matches the list).  In every state reachable from `newVM`
through `pushInt`, `pushPair`, `push`, `pop`, `sweep` and `gc` (and
assignments to right edges) the all-objects list is a proper list and
`numObjects` is the number of its nodes; a `newObject` that returns has put
one node in front of the list and added one to the count. -/
theorem numObjects_eq_list_length (vm : VM) (r : Run vm) :
    (∃ L, Chain vm.heap vm.first_obj L ∧ vm.numObjects = (L.length : Int)) ∧
    ∀ fuel typ addr a vmN, newObject fuel vm typ addr = some (a, vmN) →
      ∃ L1, Chain vmN.heap vmN.first_obj (a :: L1) ∧
        vmN.numObjects = (L1.length : Int) + 1 := by
  obtain ⟨L, s⟩ := r.sound
  refine ⟨⟨L, s.1, s.2.2.1⟩, ?_⟩
  intro fuel typ addr a vmN e
  obtain ⟨L1, sN, _, _⟩ := newObject_sound s e
  refine ⟨L1, sN.1, ?_⟩
  rw [sN.2.2.1]
  simp

theorem numObjects_eq_list_length_witness :
    ∃ vm, runOps 7 test4Script newVM = some vm ∧
      ((∃ L, Chain vm.heap vm.first_obj L ∧ vm.numObjects = (L.length : Int)) ∧
        ∀ fuel typ addr a vmN, newObject fuel vm typ addr = some (a, vmN) →
          ∃ L1, Chain vmN.heap vmN.first_obj (a :: L1) ∧
            vmN.numObjects = (L1.length : Int) + 1) := by
  have h : (runOps 7 test4Script newVM).isSome = true := by decide
  obtain ⟨vm, hvm⟩ := Option.isSome_iff_exists.1 h
  exact ⟨vm, hvm, numObjects_eq_list_length vm (runOps_run _ _ _ Run.init hvm)⟩

/-- C19 (threshold bound).  In every state reachable from `newVM` through
`pushInt`, `pushPair`, `push`, `pop` and `gc`, `numObjects <= maxObjects`;
right after a `gc` from such a state `numObjects < maxObjects`; hence a
`newObject` that returns leaves `numObjects <= maxObjects`, and when it was
called at the threshold a collection has run before the object was added. -/
theorem threshold_bound (vm : VM) (r : Reached vm) :
    vm.numObjects ≤ vm.maxObjects ∧
    (∀ fuel vm1, gc fuel vm = some vm1 → vm1.numObjects < vm1.maxObjects) ∧
    ∀ fuel typ addr a vmN, newObject fuel vm typ addr = some (a, vmN) →
      vmN.numObjects ≤ vmN.maxObjects ∧
      (vm.numObjects = vm.maxObjects →
        ∃ vm1, gc fuel vm = some vm1 ∧ vmN.numObjects = vm1.numObjects + 1) := by
  obtain ⟨L, s⟩ := r.toRun.sound
  refine ⟨s.2.2.2.1, ?_, ?_⟩
  · intro fuel vm1 e
    obtain ⟨_, _, hlt, _⟩ := gc_sound s e
    exact hlt
  · intro fuel typ addr a vmN e
    obtain ⟨L1, sN, _, _⟩ := newObject_sound s e
    refine ⟨sN.2.2.2.1, ?_⟩
    intro hfull
    obtain ⟨vm1, h1, _, _, rfl⟩ := newObject_inv e
    rw [if_pos hfull] at h1
    exact ⟨vm1, h1, rfl⟩

theorem threshold_bound_witness :
    ∃ vm, test1VM = some vm ∧
      (vm.numObjects ≤ vm.maxObjects ∧
        (∀ fuel vm1, gc fuel vm = some vm1 → vm1.numObjects < vm1.maxObjects) ∧
        ∀ fuel typ addr a vmN, newObject fuel vm typ addr = some (a, vmN) →
          vmN.numObjects ≤ vmN.maxObjects ∧
          (vm.numObjects = vm.maxObjects →
            ∃ vm1, gc fuel vm = some vm1 ∧ vmN.numObjects = vm1.numObjects + 1)) := by
  have h : test1VM.isSome = true := by decide
  obtain ⟨vm, hvm⟩ := Option.isSome_iff_exists.1 h
  have r : Reached vm := by
    have hvm1 := hvm
    unfold test1VM at hvm1
    cases h1 : pushInt 100 newVM 1 10 with
    | none => simp [h1] at hvm1
    | some vm1 =>
      simp only [h1] at hvm1
      exact Reached.pushInt (Reached.pushInt Reached.init h1) hvm1
  exact ⟨vm, hvm, threshold_bound vm r⟩

/-- C15 (teardown reclaims everything).  In every state reachable from `newVM`
by client scripts, cycles made by edge assignments included, the all-objects
list is a proper list `L`, and the collection `freeVM` runs after setting
`stack_size` to 0 returns, releases every object of `L`, and leaves the
all-objects list empty and `numObjects == 0`. -/
theorem freeVM_reclaims_all (vm : VM) (r : Run vm) :
    ∃ L, Chain vm.heap vm.first_obj L ∧
      ∀ fuel, L.length + 1 ≤ fuel →
        ∃ vm1, freeVM fuel vm = some vm1 ∧ vm1.first_obj = none ∧ vm1.numObjects = 0 ∧
          ∀ a ∈ L, vm1.heap a = none := by
  obtain ⟨L, hc, hclear, hcount, _, _⟩ := r.sound
  refine ⟨L, hc, ?_⟩
  intro fuel hf
  obtain ⟨vm2, hs, post⟩ := sweepLoop_spec L fuel { vm with stack_size := 0 } Loc.head _ rfl hc
    (fun b hb => by cases hb) hf
  have hnil : L.filter (isMarked vm.heap) = [] := by
    rw [List.filter_eq_nil_iff]
    intro a ha
    simp [hclear a ha]
  have hall : L.filter (fun a => !isMarked vm.heap a) = L := by
    rw [List.filter_eq_self]
    intro a ha
    simp [hclear a ha]
  refine ⟨{ vm2 with maxObjects :=
      if vm2.numObjects = 0 then INIT_OBJ_NUM_MAX else vm2.numObjects * 2 }, ?_, ?_, ?_, ?_⟩
  · have hsw : sweep fuel { vm with stack_size := 0 } = some vm2 := hs
    simp only [freeVM, gc, markAll, roots, List.range_zero, List.map_nil, markRoots, hsw]
  · obtain ⟨p1, hp1, hch⟩ := post.chain
    cases hp1
    have hch1 : Chain vm2.heap vm2.first_obj (L.filter (isMarked vm.heap)) := hch
    rw [hnil] at hch1
    exact hch1
  · have hcnt := post.count
    have hcnt1 : vm2.numObjects =
        vm.numObjects - ((L.filter (fun a => !isMarked vm.heap a)).length : Int) := hcnt
    rw [hall, hcount] at hcnt1
    show vm2.numObjects = 0
    omega
  · intro a ha
    exact post.freed a ha (hclear a ha)

theorem freeVM_reclaims_all_witness :
    ∃ vm, runOps 7 test4Script newVM = some vm ∧
      ∃ L, Chain vm.heap vm.first_obj L ∧
        ∀ fuel, L.length + 1 ≤ fuel →
          ∃ vm1, freeVM fuel vm = some vm1 ∧ vm1.first_obj = none ∧ vm1.numObjects = 0 ∧
            ∀ a ∈ L, vm1.heap a = none := by
  have h : (runOps 7 test4Script newVM).isSome = true := by decide
  obtain ⟨vm, hvm⟩ := Option.isSome_iff_exists.1 h
  exact ⟨vm, hvm, freeVM_reclaims_all vm (runOps_run _ _ _ Run.init hvm)⟩

/-! ## Operands of `pushPair` across a collection -/

/-- The function `pushPair` after its call of `newObject`: two pops, two edge
assignments, one push. -/
theorem pushPair_of_newObject {vm vmN : VM} {fuel addr a : Nat} {oN : object_t}
    (hn : newObject fuel vm obj_type.PAIR_TYPE addr = some (a, vmN))
    (ho : vmN.heap a = some oN) (h2 : 2 ≤ vmN.stack_size)
    (hb : vmN.stack_size ≤ STACK_MAX_SIZE) :
    pushPair fuel vm addr = some (a,
      { vmN with
        heap := upd (upd vmN.heap a (some { oN with left := vmN.STACK (vmN.stack_size - 1) }))
          a (some { oN with left := vmN.STACK (vmN.stack_size - 1)
                            right := vmN.STACK (vmN.stack_size - 1 - 1) })
        STACK := fun i => if i = vmN.stack_size - 1 - 1 then some a else vmN.STACK i
        stack_size := vmN.stack_size - 1 - 1 + 1 }) := by
  have h1 : vmN.stack_size > 0 := by omega
  have h3 : vmN.stack_size - 1 > 0 := by omega
  have h4 : vmN.stack_size - 1 - 1 < STACK_MAX_SIZE := by omega
  simp only [pushPair, hn, pop, if_pos h1, ho, if_pos h3, upd_same, push, if_pos h4]

/-- C20 (operands survive a collection triggered by `pushPair`).  On a
well-formed VM with at least two roots and `numObjects == maxObjects`,
`pushPair` returns for every address `addr` that `malloc` may hand out once
the collection has run, that is every address free in the heap that `gc`
leaves, the chunks the collection has just freed included; the collection it
triggers is `gc` on the state in which both operands are still roots, so
every object reachable from the root set, the operands and all they reach
among them, is still in the all-objects list with its data unchanged; the
new pair is the head of that list, its left edge is the former top of the
root set, its right edge the entry below, and each edge is `NULL` or refers
to an object of the list. -/
theorem pushPair_operands_survive (vm : VM) (L : List Nat) (fuel addr : Nat)
    (w : WellFormed vm L) (h2 : 2 ≤ vm.stack_size) (hb : vm.stack_size ≤ STACK_MAX_SIZE)
    (hfull : vm.numObjects = vm.maxObjects)
    (hfree : ∀ vmG, gc fuel vm = some vmG → vmG.heap addr = none)
    (hf : L.length + 1 ≤ fuel) :
    ∃ (vmG vm1 : VM) (L1 : List Nat) (o : object_t),
      gc fuel vm = some vmG ∧ Chain vmG.heap vmG.first_obj L1 ∧
      pushPair fuel vm addr = some (addr, vm1) ∧
      Chain vm1.heap vm1.first_obj (addr :: L1) ∧
      (∀ a, Reach vm a → a ∈ L1 ∧ ∃ o0 o1, vm.heap a = some o0 ∧ vm1.heap a = some o1 ∧
        SameData o0 o1) ∧
      vm1.heap addr = some o ∧ o.type = obj_type.PAIR_TYPE ∧
      o.left = vm.STACK (vm.stack_size - 1) ∧ o.right = vm.STACK (vm.stack_size - 2) ∧
      PtrIn o.left L1 ∧ PtrIn o.right L1 := by
  obtain ⟨vmG, keep, hg, post⟩ := gc_spec vm L fuel w hf
  have hfreeG : vmG.heap addr = none := hfree vmG hg
  have haddr1 : addr ∉ L.filter keep := by
    intro hmem
    obtain ⟨o, ho⟩ := post.chain.alloc addr hmem
    rw [hfreeG] at ho
    cases ho
  have hsz : vmG.stack_size = vm.stack_size := post.stack.2
  have hstk : vmG.STACK = vm.STACK := post.stack.1
  have hn : newObject fuel vm obj_type.PAIR_TYPE addr = some (addr,
      { vmG with
        heap := upd vmG.heap addr
          (some ⟨obj_type.PAIR_TYPE, 0, vmG.first_obj, 0, none, none⟩)
        first_obj := some addr
        numObjects := vmG.numObjects + 1 }) := by
    simp only [newObject, if_pos hfull, hg, hfreeG]
  have hp := pushPair_of_newObject hn (upd_same _ _ _) (by rw [← hsz] at h2; exact h2)
    (by rw [← hsz] at hb; exact hb)
  have hin : ∀ a, Reach vm a → a ∈ L.filter keep := fun a r =>
    List.mem_filter.2 ⟨w.reach_mem r, (post.keep_iff a (w.reach_mem r)).2 r⟩
  have hroot : ∀ i, i < vm.stack_size → PtrIn (vm.STACK i) (L.filter keep) := by
    intro i hi x hx
    rw [Option.mem_def] at hx
    refine hin x (Reachable.root ?_)
    rw [← hx]
    exact List.mem_map.2 ⟨i, List.mem_range.2 hi, rfl⟩
  refine ⟨vmG, _, L.filter keep, _, hg, post.chain, hp, ?_, ?_, upd_same _ _ _, rfl, ?_, ?_, ?_, ?_⟩
  · refine ⟨rfl, _, Option.mem_def.2 (upd_same _ _ _), ?_⟩
    refine Chain.frame ?_ post.chain
    intro x hx
    have hxa : x ≠ addr := fun e => haddr1 (e ▸ hx)
    show upd (upd (upd vmG.heap addr _) addr _) addr _ x = vmG.heap x
    rw [upd_other _ _ _ _ hxa, upd_other _ _ _ _ hxa, upd_other _ _ _ _ hxa]
  · intro a r
    have haL := w.reach_mem r
    have hk := (post.keep_iff a haL).2 r
    obtain ⟨o0, o1, ho0, ho1, hd, _⟩ := post.kept a haL hk
    have hxa : a ≠ addr := fun e => haddr1 (e ▸ hin a r)
    refine ⟨hin a r, o0, o1, ho0, ?_, hd⟩
    show upd (upd (upd vmG.heap addr _) addr _) addr _ a = some o1
    rw [upd_other _ _ _ _ hxa, upd_other _ _ _ _ hxa, upd_other _ _ _ _ hxa]
    exact ho1
  · show vmG.STACK (vmG.stack_size - 1) = vm.STACK (vm.stack_size - 1)
    rw [hstk, hsz]
  · show vmG.STACK (vmG.stack_size - 1 - 1) = vm.STACK (vm.stack_size - 2)
    rw [hstk, hsz]
    rfl
  · show PtrIn (vmG.STACK (vmG.stack_size - 1)) (L.filter keep)
    rw [hstk, hsz]
    exact hroot _ (by omega)
  · show PtrIn (vmG.STACK (vmG.stack_size - 1 - 1)) (L.filter keep)
    rw [hstk, hsz]
    exact hroot _ (by omega)

/-- On `fullVM` the collection frees the objects at 10 and 40. -/
theorem fullVM_gc_frees :
    (gc 7 fullVM).map (fun (vm : VM) => decide (vm.heap 10 = none ∧ vm.heap 40 = none)) =
      some true := by
  decide

theorem pushPair_operands_survive_witness :
    (WellFormed fullVM [60, 50, 40, 30, 20, 10] ∧ 2 ≤ fullVM.stack_size ∧
      fullVM.stack_size ≤ STACK_MAX_SIZE ∧ fullVM.numObjects = fullVM.maxObjects ∧
      (∃ o, fullVM.heap 10 = some o) ∧
      (∀ vmG, gc 7 fullVM = some vmG → vmG.heap 10 = none) ∧
      [60, 50, 40, 30, 20, 10].length + 1 ≤ 7) ∧
    ∃ (vmG vm1 : VM) (L1 : List Nat) (o : object_t),
      gc 7 fullVM = some vmG ∧ Chain vmG.heap vmG.first_obj L1 ∧
      pushPair 7 fullVM 10 = some (10, vm1) ∧
      Chain vm1.heap vm1.first_obj (10 :: L1) ∧
      (∀ a, Reach fullVM a → a ∈ L1 ∧ ∃ o0 o1, fullVM.heap a = some o0 ∧
        vm1.heap a = some o1 ∧ SameData o0 o1) ∧
      vm1.heap 10 = some o ∧ o.type = obj_type.PAIR_TYPE ∧
      o.left = fullVM.STACK (fullVM.stack_size - 1) ∧
      o.right = fullVM.STACK (fullVM.stack_size - 2) ∧
      PtrIn o.left L1 ∧ PtrIn o.right L1 :=
  have hpost : ∀ vmG, gc 7 fullVM = some vmG → vmG.heap 10 = none := by
    intro vmG hg
    have h := fullVM_gc_frees
    rw [hg] at h
    exact (of_decide_eq_true (Option.some.inj h)).1
  ⟨⟨by decide, by decide, by decide, by decide, ⟨_, rfl⟩, hpost, by decide⟩,
    pushPair_operands_survive fullVM [60, 50, 40, 30, 20, 10] 7 10 (by decide)
      (by decide) (by decide) (by decide) hpost (by decide)⟩

/-- Scenario: `pushPair` on `fullVM` collects first and then links the two
roots, the former top (the pair at 60) as left edge. -/
theorem fullVM_pushPair :
    (pushPair 7 fullVM 70).map (fun (r : Nat × VM) =>
      decide (edgesAt r.2 70 = some (some 60, some 30) ∧ r.2.numObjects = 5 ∧
        Chain r.2.heap r.2.first_obj [70, 60, 50, 30, 20])) = some true := by
  decide

/-- Scenario: the same call when `malloc` hands out the chunk at 10 that the
collection has just freed; the new pair reuses that address. -/
theorem fullVM_pushPair_reuses :
    (pushPair 7 fullVM 10).map (fun (r : Nat × VM) =>
      decide (r.1 = 10 ∧ edgesAt r.2 10 = some (some 60, some 30) ∧ r.2.numObjects = 5 ∧
        Chain r.2.heap r.2.first_obj [10, 60, 50, 30, 20])) = some true := by
  decide

/-- C12 (root-set contract violations).  In a VM whose root stack is within
its bound of `STACK_MAX_SIZE` entries, `push` fails exactly when `stack_size`
is 256 and `pop` fails exactly when `stack_size` is 0; in every other such
state both return.  Every state reachable from `newVM` by client scripts is
within that bound. -/
theorem push_pop_fail_iff (vm : VM) (obj : Ptr) (hb : vm.stack_size ≤ STACK_MAX_SIZE) :
    (push vm obj = none ↔ vm.stack_size = STACK_MAX_SIZE) ∧
    (pop vm = none ↔ vm.stack_size = 0) ∧
    (vm.stack_size ≠ STACK_MAX_SIZE → ∃ vm1, push vm obj = some vm1) ∧
    (vm.stack_size ≠ 0 → ∃ p vm1, pop vm = some (p, vm1)) ∧
    (∀ vm0, Run vm0 → vm0.stack_size ≤ STACK_MAX_SIZE) := by
  refine ⟨?_, ?_, ?_, ?_, ?_⟩
  · simp only [push]
    constructor
    · intro h
      by_cases hlt : vm.stack_size < STACK_MAX_SIZE
      · rw [if_pos hlt] at h
        cases h
      · omega
    · intro h
      rw [if_neg (by omega)]
  · simp only [pop]
    constructor
    · intro h
      by_cases hlt : vm.stack_size > 0
      · rw [if_pos hlt] at h
        cases h
      · omega
    · intro h
      rw [if_neg (by omega)]
  · intro hne
    have hlt : vm.stack_size < STACK_MAX_SIZE := by omega
    rw [push, if_pos hlt]
    exact ⟨_, rfl⟩
  · intro hne
    have hlt : vm.stack_size > 0 := by omega
    rw [pop, if_pos hlt]
    exact ⟨_, _, rfl⟩
  · intro vm0 r
    obtain ⟨L, s⟩ := r.sound
    exact s.2.2.2.2

theorem push_pop_fail_iff_witness :
    cycleVM.stack_size ≤ STACK_MAX_SIZE ∧
    ((push cycleVM (some 10) = none ↔ cycleVM.stack_size = STACK_MAX_SIZE) ∧
      (pop cycleVM = none ↔ cycleVM.stack_size = 0) ∧
      (cycleVM.stack_size ≠ STACK_MAX_SIZE → ∃ vm1, push cycleVM (some 10) = some vm1) ∧
      (cycleVM.stack_size ≠ 0 → ∃ p vm1, pop cycleVM = some (p, vm1)) ∧
      (∀ vm0, Run vm0 → vm0.stack_size ≤ STACK_MAX_SIZE)) :=
  ⟨by decide, push_pop_fail_iff cycleVM (some 10) (by decide)⟩

/-- Below the threshold `pushPair` does not collect: the new pair takes the
former top of the root set as its left edge and the entry below it as its
right edge, and replaces both on the stack. -/
theorem pushPair_edges (vm : VM) (fuel addr : Nat) (h2 : 2 ≤ vm.stack_size)
    (hb : vm.stack_size ≤ STACK_MAX_SIZE) (hroom : vm.numObjects ≠ vm.maxObjects)
    (hfree : vm.heap addr = none) :
    ∃ vm1, pushPair fuel vm addr = some (addr, vm1) ∧
      edgesAt vm1 addr = some (vm.STACK (vm.stack_size - 1), vm.STACK (vm.stack_size - 2)) ∧
      vm1.stack_size = vm.stack_size - 1 ∧
      vm1.STACK (vm.stack_size - 2) = some addr := by
  have hn : newObject fuel vm obj_type.PAIR_TYPE addr = some (addr,
      { vm with
        heap := upd vm.heap addr (some ⟨obj_type.PAIR_TYPE, 0, vm.first_obj, 0, none, none⟩)
        first_obj := some addr
        numObjects := vm.numObjects + 1 }) := by
    simp only [newObject, if_neg hroom, hfree]
  have hp := pushPair_of_newObject hn (upd_same _ _ _) h2 hb
  refine ⟨_, hp, ?_, ?_, ?_⟩
  · simp [edgesAt, upd_same]
    rfl
  · show vm.stack_size - 1 - 1 + 1 = vm.stack_size - 1
    omega
  · show (if vm.stack_size - 2 = vm.stack_size - 1 - 1 then some addr
      else vm.STACK (vm.stack_size - 2)) = some addr
    rw [if_pos (by omega)]

end GC

namespace Alloc

/-- The rounded size of a request of 9 bytes. -/
theorem force_alignment_at_nine : force_alignment 9 = 10 := by decide

/-- The three blocks after the releases of `threeFreed`. -/
theorem threeFreed_blocks : threeFreed.map (fun s => [blockInfo s.mem 1000, blockInfo s.mem 1264,
    blockInfo s.mem 1528]) = some [some (1, 16), some (1, 8), some (1, 8)] := by decide

/-- The chain after the releases of `threeFreed`. -/
theorem threeFreed_chain : threeFreed.map (fun s => decide (BChain s.mem s.heap_base [1000, 1528])) =
    some true := by decide

/-- A request close to the top of `size_t` moves the break by 248 bytes. -/
theorem huge_request_break : (my_malloc 1 (emptyArena 0 1000) (2 ^ 64 - 8)).map (fun r => (r.1, r.2.brk)) =
    some (some 256, 248) := by decide

/-! ## Claims about the allocator -/

theorem put_same (m : Mem) (a : Nat) (v : meta_block) : put m a v a = some v := by
  simp [put]

theorem put_other (m : Mem) (a : Nat) (v : meta_block) (x : Nat) (hx : x ≠ a) :
    put m a v x = m x := by
  simp [put, hx]

/-- C6 (alignment), failing input.  For the request 9 the rounded size is
`9 + 9 % 8 = 10`, which is not a multiple of the quantum 8 and is not the
smallest multiple 16 above 9; the block `my_malloc` creates for it has size 10. -/
theorem force_alignment_nine :
    force_alignment 9 = 10 ∧ ¬ (DATABUS_SIZE_IN_BYTES ∣ force_alignment 9) ∧
    (my_malloc 1 (emptyArena 0 100000) 9).map (fun r => (r.1, blockInfo r.2.mem 0)) =
      some (some 256, some (0, 10)) := by
  decide

/-- C7 (full coalescing), failing input.  Three blocks of 8 bytes are requested
from an empty arena and then released in the order first, third, second.
Every call returns, yet after the last `my_free` the chain consists of the two
consecutive blocks at 1000 and 1528 and both are free: `merging` steps past the
block it has just enlarged. -/
theorem merging_leaves_adjacent_free :
    ∃ s, threeFreed = some s ∧ BChain s.mem s.heap_base [1000, 1528] ∧
      blockInfo s.mem 1000 = some (1, 16) ∧ blockInfo s.mem 1528 = some (1, 8) := by
  have h : threeFreed.isSome = true := by decide
  obtain ⟨s, hs⟩ := Option.isSome_iff_exists.1 h
  refine ⟨s, hs, ?_, ?_, ?_⟩
  · have : threeFreed.map (fun s => decide (BChain s.mem s.heap_base [1000, 1528])) =
        some true := by decide
    rw [hs] at this
    simpa using this
  · have : threeFreed.map (fun s => blockInfo s.mem 1000) = some (some (1, 16)) := by decide
    rw [hs] at this
    simpa using this
  · have : threeFreed.map (fun s => blockInfo s.mem 1528) = some (some (1, 8)) := by decide
    rw [hs] at this
    simpa using this

/-- A call of `sbrk` changes the break only, and a call that succeeds
returns the old break. -/
theorem sbrk_frame (s : Arena) (incr : Nat) :
    (sbrk s incr).2.mem = s.mem ∧ (sbrk s incr).2.limit = s.limit ∧
    (sbrk s incr).2.heap_base = s.heap_base ∧
    ((sbrk s incr).1 = none ∨ (sbrk s incr).1 = some s.brk) := by
  unfold sbrk
  split_ifs <;> exact ⟨rfl, rfl, rfl, by simp⟩

/-- The first request on an empty arena, when `sbrk` grants it: a block is
written at the old break. -/
theorem my_malloc_first (s : Arena) (N fuel : Nat) (hempty : s.heap_base = none) (hN : 0 < N)
    (hgrant : (sbrk s ((force_alignment N + META_DATA_SIZE) % SIZE_MOD)).1 = some s.brk) :
    my_malloc fuel s N = some (some (s.brk + META_DATA_SIZE),
      { heap_base := some s.brk
        brk := (sbrk s ((force_alignment N + META_DATA_SIZE) % SIZE_MOD)).2.brk
        limit := s.limit
        mem := put s.mem s.brk
          { next := none, size := force_alignment N, free := 0, magic := 0x12 } }) := by
  have hN0 : N ≠ 0 := Nat.pos_iff_ne_zero.1 hN
  obtain ⟨hm, hl, _, _⟩ := sbrk_frame s ((force_alignment N + META_DATA_SIZE) % SIZE_MOD)
  cases hs : sbrk s ((force_alignment N + META_DATA_SIZE) % SIZE_MOD) with
  | mk r s1 =>
    rw [hs] at hgrant hm hl
    simp only at hgrant hm hl
    subst hgrant
    simp [my_malloc, hN0, hempty, request_space, hs, hm, hl]

/-- Releasing the only block of a chain marks it free and touches nothing else. -/
theorem my_free_lone (s : Arena) (a f : Nat) (b : meta_block) (hm : s.mem a = some b)
    (hb : s.heap_base = some a) (hn : b.next = none) :
    my_free (f + 1) s (some (a + META_DATA_SIZE)) =
      some { s with
        mem := put (put s.mem a { b with free := 1 }) a { b with free := 1, magic := 0x55 } } := by
  have hg : get_block_ptr (a + META_DATA_SIZE) = a := by simp [get_block_ptr]
  have hlt : ¬ (a + META_DATA_SIZE < META_DATA_SIZE) := by omega
  simp [my_free, hg, hlt, hm, hb, merging, put_same, hn]

/-- A request that finds a free first block of exactly the rounded size takes
it whole. -/
theorem my_malloc_exact (s : Arena) (a f N : Nat) (b : meta_block) (hm : s.mem a = some b)
    (hb : s.heap_base = some a) (hfree : b.free ≠ 0) (hsz : b.size = force_alignment N)
    (hN : 0 < N) :
    my_malloc (f + 1) s N = some (some (a + META_DATA_SIZE),
      { s with mem := put s.mem a { b with free := 0, magic := 0x77 } }) := by
  have hN0 : N ≠ 0 := Nat.pos_iff_ne_zero.1 hN
  simp [my_malloc, hN0, hb, find_free_block, hm, hfree, hsz]

/-- C9 (allocate, release, allocate).  On an empty arena on which `sbrk`
grants the first request of `N > 0` bytes, that request returns a pointer
`p`, releasing `p` and requesting `N` bytes again returns `p` again, leaves
the break where the first request put it, and leaves a chain of exactly one
block, in use, of the rounded size. -/
theorem malloc_free_malloc_same (s : Arena) (N fuel : Nat) (hempty : s.heap_base = none)
    (hN : 0 < N)
    (hgrant : (sbrk s ((force_alignment N + META_DATA_SIZE) % SIZE_MOD)).1 = some s.brk)
    (hf : 1 ≤ fuel) :
    ∃ s1 s2 s3 p, my_malloc fuel s N = some (some p, s1) ∧
      my_free fuel s1 (some p) = some s2 ∧
      my_malloc fuel s2 N = some (some p, s3) ∧
      s3.brk = s1.brk ∧ BChain s3.mem s3.heap_base [get_block_ptr p] ∧
      blockInfo s3.mem (get_block_ptr p) = some (0, force_alignment N) := by
  obtain ⟨f, rfl⟩ : ∃ f, fuel = f + 1 := ⟨fuel - 1, by omega⟩
  have h1 := my_malloc_first s N (f + 1) hempty hN hgrant
  have h2 := my_free_lone
    { heap_base := some s.brk
      brk := (sbrk s ((force_alignment N + META_DATA_SIZE) % SIZE_MOD)).2.brk
      limit := s.limit
      mem := put s.mem s.brk { next := none, size := force_alignment N, free := 0, magic := 0x12 } }
    s.brk f { next := none, size := force_alignment N, free := 0, magic := 0x12 }
    (put_same s.mem s.brk _) rfl rfl
  have h3 := my_malloc_exact
    { heap_base := some s.brk
      brk := (sbrk s ((force_alignment N + META_DATA_SIZE) % SIZE_MOD)).2.brk
      limit := s.limit
      mem := put (put (put s.mem s.brk
          { next := none, size := force_alignment N, free := 0, magic := 0x12 }) s.brk
          { next := none, size := force_alignment N, free := 1, magic := 0x12 }) s.brk
          { next := none, size := force_alignment N, free := 1, magic := 0x55 } }
    s.brk f N { next := none, size := force_alignment N, free := 1, magic := 0x55 }
    (put_same _ s.brk _) rfl (by simp) rfl hN
  refine ⟨_, _, _, _, h1, h2, h3, rfl, ?_, ?_⟩
  · simp [get_block_ptr, BChain, put_same]
  · simp [get_block_ptr, blockInfo, put_same]

theorem malloc_free_malloc_same_witness :
    ((emptyArena 4096 65536).heap_base = none ∧ 0 < 13 ∧
      (sbrk (emptyArena 4096 65536) ((force_alignment 13 + META_DATA_SIZE) % SIZE_MOD)).1 =
        some (emptyArena 4096 65536).brk ∧ 1 ≤ 1) ∧
    ∃ s1 s2 s3 p, my_malloc 1 (emptyArena 4096 65536) 13 = some (some p, s1) ∧
      my_free 1 s1 (some p) = some s2 ∧
      my_malloc 1 s2 13 = some (some p, s3) ∧
      s3.brk = s1.brk ∧ BChain s3.mem s3.heap_base [get_block_ptr p] ∧
      blockInfo s3.mem (get_block_ptr p) = some (0, force_alignment 13) :=
  ⟨by decide, malloc_free_malloc_same (emptyArena 4096 65536) 13 1 rfl (by decide) (by decide)
    (by decide)⟩

/-! ## The block chain -/

theorem bchain_frame {m m1 : Mem} : ∀ {L : List Nat} {p : Option Nat},
    (∀ x ∈ L, m1 x = m x) → BChain m p L → BChain m1 p L := by
  intro L
  induction L with
  | nil => intro p _ c; exact c
  | cons a l ih =>
    intro p hf c
    obtain ⟨hp, b, hb, hc⟩ := c
    refine ⟨hp, b, ?_, ih (fun x hx => hf x (List.mem_cons_of_mem _ hx)) hc⟩
    rw [Option.mem_def] at hb ⊢
    rw [hf a (List.mem_cons_self _ _)]
    exact hb

theorem bchain_alloc {m : Mem} : ∀ {L : List Nat} {p : Option Nat},
    BChain m p L → ∀ a ∈ L, ∃ b, m a = some b := by
  intro L
  induction L with
  | nil => intro p _ a ha; simp at ha
  | cons c t ih =>
    intro p hc a ha
    obtain ⟨_, b, hb, hct⟩ := hc
    rcases List.mem_cons.1 ha with e | e
    · exact ⟨b, e ▸ Option.mem_def.1 hb⟩
    · exact ih hct a e

theorem fits_eq {m : Mem} {a : Nat} {b : meta_block} (hb : m a = some b) (size : Nat) :
    fits m size a = true ↔ (b.free ≠ 0 ∧ b.size ≥ size) := by
  simp [fits, hb]

/-- The scan stops at the first block that fits. -/
theorem find_free_block_found {m : Mem} {size a : Nat} {post : List Nat} :
    ∀ (pre : List Nat) (p : Option Nat) (last fuel : Nat),
    BChain m p (pre ++ a :: post) → (∀ x ∈ pre, fits m size x = false) →
    fits m size a = true → pre.length + 1 ≤ fuel →
    ∃ last1, find_free_block fuel m p last size = some (some a, last1) := by
  intro pre
  induction pre with
  | nil =>
    intro p last fuel hc _ hfit hf
    obtain ⟨f, rfl⟩ : ∃ f, fuel = f + 1 := ⟨fuel - 1, by omega⟩
    obtain ⟨hp, b, hb, _⟩ := hc
    rw [Option.mem_def] at hb
    subst hp
    have := (fits_eq hb size).1 hfit
    exact ⟨last, by simp [find_free_block, hb, this]⟩
  | cons c t ih =>
    intro p last fuel hc hpre hfit hf
    obtain ⟨f, rfl⟩ : ∃ f, fuel = f + 1 := ⟨fuel - 1, by omega⟩
    obtain ⟨hp, b, hb, hct⟩ := hc
    rw [Option.mem_def] at hb
    subst hp
    have hno : ¬ (b.free ≠ 0 ∧ b.size ≥ size) := by
      rw [← fits_eq hb size, hpre c (List.mem_cons_self _ _)]
      simp
    obtain ⟨last1, h1⟩ := ih b.next c f hct
      (fun x hx => hpre x (List.mem_cons_of_mem _ hx)) hfit (by simp at hf; omega)
    exact ⟨last1, by rw [find_free_block]; simp only [hb, if_neg hno]; exact h1⟩

/-- Taking the block found by the scan: split it when it is larger than
needed, then mark it in use. -/
theorem my_malloc_take (s : Arena) (S fuel a base last1 : Nat) (b : meta_block)
    (hbase : s.heap_base = some base) (hS : 0 < S) (hb : s.mem a = some b)
    (hfind : find_free_block fuel s.mem (some base) base (force_alignment S) =
      some (some a, last1)) :
    ∃ s1, my_malloc fuel s S = some (some (a + META_DATA_SIZE), s1) ∧
      s1.brk = s.brk ∧ s1.heap_base = s.heap_base ∧ ∃ b1, s1.mem a = some b1 ∧ b1.free = 0 := by
  have hS0 : S ≠ 0 := Nat.pos_iff_ne_zero.1 hS
  by_cases hgt : b.size > force_alignment S
  · have hne : a ≠ a + force_alignment S + META_DATA_SIZE := by
      simp [META_DATA_SIZE]
      omega
    have e : my_malloc fuel s S = some (some (a + META_DATA_SIZE),
        { s with
          mem := put (put (put s.mem (a + force_alignment S + META_DATA_SIZE)
              { next := b.next, free := 1,
                size := (b.size + SIZE_MOD - force_alignment S) % SIZE_MOD, magic := 0x99 })
            a { b with size := force_alignment S
                       next := some (a + force_alignment S + META_DATA_SIZE) })
            a { next := some (a + force_alignment S + META_DATA_SIZE)
                size := force_alignment S, free := 0, magic := 0x77 } }) := by
      simp only [my_malloc, hS0, if_false, hbase, hfind, hb, if_pos hgt, splitting,
        put_other _ _ _ _ hne, put_same]
    exact ⟨_, e, rfl, rfl, _, put_same _ _ _, rfl⟩
  · have e : my_malloc fuel s S = some (some (a + META_DATA_SIZE),
        { s with mem := put s.mem a { b with free := 0, magic := 0x77 } }) := by
      simp only [my_malloc, hS0, if_false, hbase, hfind, hb, if_neg hgt]
    exact ⟨_, e, rfl, rfl, _, put_same _ _ _, rfl⟩

/-- C8 (first fit).  In a state whose block chain `L` is not empty, a request
of `S > 0` bytes for which some free block is large enough returns the payload
pointer (header address plus `META_DATA_SIZE`) of the earliest such block `a`
of the chain, leaves that block marked in use and leaves the break unchanged. -/
theorem my_malloc_first_fit (s : Arena) (L : List Nat) (base S fuel : Nat)
    (hbase : s.heap_base = some base) (hc : BChain s.mem (some base) L) (hS : 0 < S)
    (hex : ∃ x ∈ L, fits s.mem (force_alignment S) x = true) (hf : L.length ≤ fuel) :
    ∃ (pre : List Nat) (a : Nat) (post : List Nat) (s1 : Arena),
      L = pre ++ a :: post ∧ (∀ x ∈ pre, fits s.mem (force_alignment S) x = false) ∧
      fits s.mem (force_alignment S) a = true ∧
      my_malloc fuel s S = some (some (a + META_DATA_SIZE), s1) ∧
      s1.brk = s.brk ∧ s1.heap_base = s.heap_base ∧ ∃ b1, s1.mem a = some b1 ∧ b1.free = 0 := by
  cases hfind : L.find? (fits s.mem (force_alignment S)) with
  | none =>
    obtain ⟨x, hx, hfx⟩ := hex
    rw [List.find?_eq_none] at hfind
    exact absurd hfx (hfind x hx)
  | some a =>
    rw [List.find?_eq_some] at hfind
    obtain ⟨hfa, pre, post, hL, hpre⟩ := hfind
    have hpre1 : ∀ x ∈ pre, fits s.mem (force_alignment S) x = false := by
      intro x hx
      simpa using hpre x hx
    subst hL
    obtain ⟨last1, hffb⟩ := find_free_block_found pre (some base) base fuel hc hpre1 hfa
      (by simp at hf; omega)
    obtain ⟨b, hb⟩ := bchain_alloc hc a (by simp)
    obtain ⟨s1, h1, h2⟩ := my_malloc_take s S fuel a base last1 b hbase hS hb hffb
    exact ⟨pre, a, post, s1, rfl, hpre1, hfa, h1, h2⟩

theorem my_malloc_first_fit_witness :
    (demoArena.heap_base = some 1000 ∧ BChain demoArena.mem (some 1000) [1000, 1264, 1528] ∧
      0 < 16 ∧ (∃ x ∈ [1000, 1264, 1528], fits demoArena.mem (force_alignment 16) x = true) ∧
      [1000, 1264, 1528].length ≤ 3) ∧
    ∃ (pre : List Nat) (a : Nat) (post : List Nat) (s1 : Arena),
      [1000, 1264, 1528] = pre ++ a :: post ∧
      (∀ x ∈ pre, fits demoArena.mem (force_alignment 16) x = false) ∧
      fits demoArena.mem (force_alignment 16) a = true ∧
      my_malloc 3 demoArena 16 = some (some (a + META_DATA_SIZE), s1) ∧
      s1.brk = demoArena.brk ∧ s1.heap_base = demoArena.heap_base ∧
      ∃ b1, s1.mem a = some b1 ∧ b1.free = 0 :=
  ⟨by decide, my_malloc_first_fit demoArena [1000, 1264, 1528] 1000 16 3 rfl (by decide)
    (by decide) (by decide) (by decide)⟩

/-- A request of 16 bytes splits the 24-byte block at 1528 of `demoArena`. -/
theorem demoArena_split : (my_malloc 3 demoArena 16).map (fun r => (r.1, [blockInfo r.2.mem 1528,
    blockInfo r.2.mem 1800])) = some (some 1784, [some (0, 16), some (1, 8)]) := by decide

/-! ## Growing the arena -/

/-- The state of the third part of the failure above: the header of the tail
reaches beyond the break, and the members `next` and `size` of a header at
the break lie where its members `size` and `free` lie. -/
theorem split_header_crosses_break :
    crossScenario.map (fun (r : Option Nat × Arena) =>
      decide (r.2.brk = 1328 ∧ ¬ HeadersApart [1000, 1264] r.2.brk ∧
        r.2.brk < 1264 + META_DATA_SIZE ∧
        r.2.brk + OFFSET_NEXT = 1264 + OFFSET_SIZE ∧
        r.2.brk + OFFSET_SIZE = 1264 + OFFSET_FREE)) = some true := by
  decide

/-- A header map that no memory holds.  After `my_malloc(72)`,
`my_malloc(8)`, `my_free` of the first region and `my_malloc(8)` on an empty
arena with break 1000 the header map has the chain 1000, 1264, 1328 below
the break 1592, but the header of the free tail at 1264 reaches into the
header at 1328: the member `size` of the tail and the member `next` of the
block at 1328 are the same bytes, for which the map records 64 and `NULL`.
No bytes hold the headers of this chain, so the headers of a chain that the
map describes truly have to lie apart. -/
theorem split_header_meets_next :
    strideScenario.map (fun (r : Option Nat × Arena) =>
      decide (r.2.brk = 1592 ∧ BChain r.2.mem r.2.heap_base [1000, 1264, 1328] ∧
        (∀ a ∈ ([1000, 1264, 1328] : List Nat), a + META_DATA_SIZE ≤ r.2.brk) ∧
        ¬ HeadersApart [1000, 1264, 1328] r.2.brk ∧
        1264 + OFFSET_SIZE = 1328 + OFFSET_NEXT ∧
        (r.2.mem 1264).map (fun b => b.size) = some 64 ∧
        (r.2.mem 1328).map (fun b => b.next) = some none)) = some true ∧
    ∀ r, strideScenario = some r → ¬ ∃ M : Bytes, Holds M r.2.mem [1000, 1264, 1328] := by
  have hd : strideScenario.map (fun (r : Option Nat × Arena) =>
      decide ((r.2.mem 1264).map (fun b => b.size) = some 64 ∧
        (r.2.mem 1328).map (fun b => b.next) = some none)) = some true := by decide
  constructor
  · decide
  · intro r hr hex
    obtain ⟨M, hM⟩ := hex
    rw [hr] at hd
    obtain ⟨h1, h2⟩ := of_decide_eq_true (Option.some.inj hd)
    have m1 : (1264 : Nat) ∈ [1000, 1264, 1328] := by decide
    have m2 : (1328 : Nat) ∈ [1000, 1264, 1328] := by decide
    rw [hM 1264 m1, Option.map_some'] at h1
    rw [hM 1328 m2, Option.map_some'] at h2
    have e1 := Option.some.inj h1
    have e2 := Option.some.inj h2
    simp only [headerAt, OFFSET_SIZE, OFFSET_NEXT] at e1 e2
    have k : (1328 : Nat) + 0 = 1264 + 64 := by decide
    rw [k, e1] at e2
    exact absurd e2 (by decide)

/-! ## Splitting -/

/-- C17 (split tiles the original block), failing input.  The block at 1000 has
size `B = 24`, so its payload ends at 1280, where the header of the next block
starts.  A request of `a = 8` bytes splits it: the tail header is put at 1264,
the end of the shrunk payload, but the tail gets the size `B - a = 16`, so
`a + META_DATA_SIZE + 16` is 280 and not 24, and the payload of the tail ends
at 1536, beyond the start 1280 of the header that follows it in the chain. -/
theorem split_tail_overruns_next :
    splitScenario.map (fun (r : Option Nat × Arena) =>
      decide (r.1 = some 1256 ∧ BChain r.2.mem r.2.heap_base [1000, 1264, 1280] ∧
        blockInfo r.2.mem 1000 = some (0, 8) ∧ payloadEnd r.2.mem 1000 = some 1264 ∧
        blockInfo r.2.mem 1264 = some (1, 16) ∧ payloadEnd r.2.mem 1264 = some 1536 ∧
        blockInfo r.2.mem 1280 = some (0, 8))) = some true ∧
    8 + META_DATA_SIZE + 16 ≠ 24 ∧ 1280 < 1536 := by
  decide

/-- What `splitting` writes in general: the head keeps `aligned_size` bytes and
the tail is given all the rest of the old size, the header width not deducted. -/
theorem splitting_sizes (m : Mem) (block second aligned_size : Nat) (b : meta_block)
    (hb : m block = some b) (hne : block ≠ second) (hlt : aligned_size < b.size)
    (hsz : b.size < SIZE_MOD) :
    ∃ m1, splitting m block second aligned_size = some m1 ∧
      blockInfo m1 block = some (b.free, aligned_size) ∧
      blockInfo m1 second = some (1, b.size - aligned_size) := by
  have hmod : (b.size + SIZE_MOD - aligned_size) % SIZE_MOD = b.size - aligned_size := by
    have e : b.size + SIZE_MOD - aligned_size = (b.size - aligned_size) + SIZE_MOD := by omega
    rw [e, Nat.add_mod_right]
    exact Nat.mod_eq_of_lt (by omega)
  have e : splitting m block second aligned_size = some
      (put (put m second
          { next := b.next, size := (b.size + SIZE_MOD - aligned_size) % SIZE_MOD, free := 1,
            magic := 0x99 })
        block { b with size := aligned_size, next := some second }) := by
    simp only [splitting, hb, put_other _ _ _ _ hne]
  refine ⟨_, e, ?_, ?_⟩
  · simp [blockInfo, put_same]
  · have hne1 : second ≠ block := fun e => hne e.symm
    simp [blockInfo, put_same, put_other _ _ _ _ hne1, hmod]

end Alloc
